import Mathlib

/-!
Verification of the Ada83 repository renaming tooling.

The repository consists of Python scripts that rename abbreviated
identifiers in a large C source file, plus a design document for a
context-aware identifier rewriting engine that replaces them.  This file
embeds the relevant scripts (and models the engine from the design
document, which has no implementation in the repository) and proves the
stated properties.
-/

set_option maxHeartbeats 1000000

namespace Scripts

/-- Python regex word character class (ASCII view): letters, digits, underscore. -/
def wordChar (c : Char) : Bool := c.isAlpha || c.isDigit || c = '_'

/-- True when the list is empty or starts with a non-word character.
Models the word boundary after the final word character of a match. -/
def nonWordHead (l : List Char) : Bool :=
  match l with
  | [] => true
  | d :: _ => !wordChar d

theorem length_dropWhile_le (p : α → Bool) (l : List α) :
    (l.dropWhile p).length ≤ l.length := by
  induction l with
  | nil => simp [List.dropWhile]
  | cons x xs ih =>
    by_cases h : p x
    · simpa [List.dropWhile, h] using Nat.le_succ_of_le ih
    · simp [List.dropWhile, h]

/-- Embedding of one substitution of fix_bigint_fields.py, of the shape
re.sub with pattern a word run, then the separator (an arrow or a dot),
then the field name, then a word boundary; the replacement keeps the word
run and the separator and writes the expanded field name.  Scanning is
left to right and non-overlapping, as in Python re.sub. -/
def subMember (sep fld rep : List Char) : List Char → List Char
  | [] => []
  | c :: rest =>
    if wordChar c then
      if (sep ++ fld).isPrefixOf (rest.dropWhile wordChar) &&
          nonWordHead ((rest.dropWhile wordChar).drop (sep.length + fld.length)) then
        (c :: rest.takeWhile wordChar) ++ sep ++ rep ++
          subMember sep fld rep ((rest.dropWhile wordChar).drop (sep.length + fld.length))
      else
        (c :: rest.takeWhile wordChar) ++ subMember sep fld rep (rest.dropWhile wordChar)
    else c :: subMember sep fld rep rest
termination_by cs => cs.length
decreasing_by
  all_goals simp_wf
  · exact Nat.lt_succ_of_le (Nat.le_trans (Nat.sub_le _ _) (length_dropWhile_le _ _))
  · exact Nat.lt_succ_of_le (length_dropWhile_le _ _)

/-- Arrow separator of the member-access substitutions. -/
def arrowSep : List Char := ['-', '>']

/-- Dot separator of the member-access substitutions. -/
def dotSep : List Char := ['.']

/-- Embedding of the per-line transformation of fix_bigint_fields.py:
the eight re.sub calls applied in source order to one line. -/
def fixBigintLine (line : List Char) : List Char :=
  let l1 := subMember arrowSep ('d' :: []) ("digits").data line
  let l2 := subMember arrowSep ('n' :: []) ("count").data l1
  let l3 := subMember arrowSep ('c' :: []) ("capacity").data l2
  let l4 := subMember arrowSep ('s' :: []) ("is_negative").data l3
  let l5 := subMember dotSep ('d' :: []) ("digits").data l4
  let l6 := subMember dotSep ('n' :: []) ("count").data l5
  let l7 := subMember dotSep ('c' :: []) ("capacity").data l6
  subMember dotSep ('s' :: []) ("is_negative").data l7

/-- The line loop of fix_bigint_fields.py: lines with 0-based index i in
range(73, min(307, len(lines))) are rewritten, all others are kept. -/
def processBigintLines (i : Nat) (lines : List (List Char)) : List (List Char) :=
  match lines with
  | [] => []
  | l :: ls =>
    (if 73 ≤ i ∧ i < 307 then fixBigintLine l else l) :: processBigintLines (i + 1) ls

/-- Whole-file action of fix_bigint_fields.py on the list of lines read by
readlines: rewrite lines 74 to 307 (1-indexed), keep the rest, write all
lines back. -/
def fixBigintFile (lines : List (List Char)) : List (List Char) :=
  processBigintLines 0 lines

/-- Python substring containment, the `old in content` test of the patch
scripts. -/
def containsSub (pat : List Char) : List Char → Bool
  | [] => pat.isEmpty
  | c :: rest => pat.isPrefixOf (c :: rest) || containsSub pat rest

/-- Python str.replace for a non-empty pattern: replaces every
non-overlapping occurrence, scanning left to right.  The patch scripts
always call it with a non-empty literal pattern; an empty pattern is
returned unchanged here. -/
def replaceAll (old new : List Char) (cs : List Char) : List Char :=
  match old, cs with
  | _, [] => []
  | [], c :: rest => c :: rest
  | p :: ps, c :: rest =>
    if (p :: ps).isPrefixOf (c :: rest) then
      new ++ replaceAll (p :: ps) new ((c :: rest).drop (ps.length + 1))
    else
      c :: replaceAll (p :: ps) new rest
termination_by cs.length
decreasing_by
  all_goals simp_wf
  all_goals omega

/-- File action of fix_npd.py with its two hard-coded patterns abstracted
as parameters: if the old pattern occurs in the content, every occurrence
is replaced and the result is written back; otherwise nothing is written
and the file keeps its original content. -/
def fix_npd (old new content : List Char) : List Char :=
  if containsSub old content then replaceAll old new content else content

/-- File action of fix_nfd.py, same control flow as fix_npd.py with its
own pair of hard-coded patterns. -/
def fix_nfd (old new content : List Char) : List Char :=
  if containsSub old content then replaceAll old new content else content

/-- File action of fix_pragma_ultra_simple.py: one hard-coded pattern,
replaced only when present, otherwise no write. -/
def fix_pragma_ultra_simple (old new content : List Char) : List Char :=
  if containsSub old content then replaceAll old new content else content

/-- File action of fix_declarations_out.py: two hard-coded pattern pairs
(the N_PD and N_FD cases) tried in order on the evolving content, with a
count of how many matched; the file is written only when the count is
positive.  When neither pattern occurs the content is unchanged. -/
def fix_declarations_out (oldNpd newNpd oldNfd newNfd content : List Char) : List Char :=
  let c1 := if containsSub oldNpd content then replaceAll oldNpd newNpd content else content
  let c2 := if containsSub oldNfd c1 then replaceAll oldNfd newNfd c1 else c1
  c2

/-- Embedding of one re.sub of fix_field_accesses.py: the patterns there
are a literal (an arrow or dot followed by a short field name) closed by a
word boundary, and the replacement is a literal.  Scanning is left to
right and non-overlapping. -/
def subBoundLit (p : Char) (ps rep : List Char) : List Char → List Char
  | [] => []
  | c :: rest =>
    if (p :: ps).isPrefixOf (c :: rest) &&
        nonWordHead ((c :: rest).drop (ps.length + 1)) then
      rep ++ subBoundLit p ps rep ((c :: rest).drop (ps.length + 1))
    else
      c :: subBoundLit p ps rep rest
termination_by cs => cs.length
decreasing_by
  all_goals simp_wf
  all_goals omega

/-- One substitution step keyed by a (pattern, replacement) pair of
strings; the pattern is non-empty in every entry of the table below. -/
def applyFieldSub (code : List Char) (pr : String × String) : List Char :=
  match pr.1.data with
  | [] => code
  | p :: ps => subBoundLit p ps pr.2.data code

/-- The substitution table of fix_field_accesses.py, in the exact order
of the re.sub calls in the source. -/
def fieldAccessSubs : List (String × String) :=
  [("->d", "->digits"), (".d", ".digits"),
   ("->n", "->count"), (".n", ".count"),
   ("->c", "->capacity"), (".c", ".capacity"),
   ("->s", "->is_negative"), (".s", ".is_negative"),
   ("->lo", "->low_bound"), (".lo", ".low_bound"),
   ("->hi", "->high_bound"), (".hi", ".high_bound"),
   ("->m", "->mutex"), (".m", ".mutex"),
   ("->cnt", "->count"), (".cnt", ".count"),
   ("->mx", "->maximum"), (".mx", ".maximum"),
   ("->t", "->thread"), (".t", ".thread"),
   ("->q", "->queue"), (".q", ".queue"),
   ("->b", "->base"), (".b", ".base"),
   ("->p", "->pointer"), (".p", ".pointer"),
   ("->e", "->end"), (".e", ".end"),
   ("->s", "->string"), ("->n", "->length"),
   ("->l", "->line"), (".l", ".line"),
   ("->f", "->filename"), (".f", ".filename"),
   ("->iv", "->integer_value"), (".iv", ".integer_value"),
   ("->fv", "->float_value"), (".fv", ".float_value"),
   ("->ui", "->unsigned_integer"), (".ui", ".unsigned_integer"),
   ("->ur", "->unsigned_rational"), (".ur", ".unsigned_rational"),
   ("->lit", "->literal"), (".lit", ".literal"),
   ("->ln", "->line_number"), (".ln", ".line_number"),
   ("->cl", "->column"), (".cl", ".column"),
   ("->pt", "->previous_token"), (".pt", ".previous_token"),
   ("->nm", "->name"), (".nm", ".name"),
   ("->bb", "->basic_block"), (".bb", ".basic_block"),
   ("->pth", "->path"), (".pth", ".path"),
   ("->sp", "->spec"), (".sp", ".spec"),
   ("->bd", "->body"), (".bd", ".body"),
   ("->wth", "->with_list"), (".wth", ".with_list"),
   ("->elb", "->elaborates"), (".elb", ".elaborates"),
   ("->ts", "->timestamp"), (".ts", ".timestamp"),
   ("->cmpl", "->complete"), (".cmpl", ".complete"),
   ("->fp", "->formal_parameters"), (".fp", ".formal_parameters"),
   ("->dc", "->declarations"), (".dc", ".declarations"),
   ("->un", "->unit"), (".un", ".unit"),
   ("->ty", "->type_info"), (".ty", ".type_info"),
   (".er", ".enum_rep"), (".ad", ".address_clause"),
   (".rr", ".record_rep"), (".im", ".import_clause"),
   ("->po", "->position"), (".po", ".position"),
   ("->cp", "->components"), (".cp", ".components"),
   ("->lang", "->language"), (".lang", ".language"),
   ("->ext", "->external_name"), (".ext", ".external_name"),
   ("->lx", "->lexer"), (".lx", ".lexer"),
   ("->cr", "->current_token"), (".cr", ".current_token"),
   ("->pk", "->peek_token"), (".pk", ".peek_token"),
   ("->er", "->error_count"), (".er", ".error_count"),
   ("->lb", "->label_stack"), (".lb", ".label_stack"),
   ("->k", "->kind"), (".k", ".kind")]

/-- Embedding of fix_field_accesses of fix_field_accesses.py: the full
sequence of substitutions applied in source order to the file content. -/
def fix_field_accesses (code : List Char) : List Char :=
  fieldAccessSubs.foldl applyFieldSub code

/-- Embedding of one re.sub of expand_identifiers.py, whose patterns are
of the shape word-boundary, then a literal beginning with a word
character, optionally closed by another word boundary (type, macro and
enum mappings close with one; function mappings end in an opening
parenthesis and do not).  The previous-character word state is tracked to
decide the leading boundary, exactly as the regex engine sees the
original text. -/
def subWordGo (p : Char) (ps rep : List Char) (endBound : Bool) (prevWord : Bool) :
    List Char → List Char
  | [] => []
  | c :: rest =>
    if !prevWord && (p :: ps).isPrefixOf (c :: rest) &&
        (!endBound || nonWordHead ((c :: rest).drop (ps.length + 1))) then
      rep ++ subWordGo p ps rep endBound (wordChar ((p :: ps).getLastD p))
        ((c :: rest).drop (ps.length + 1))
    else
      c :: subWordGo p ps rep endBound (wordChar c) rest
termination_by cs => cs.length
decreasing_by
  all_goals simp_wf
  all_goals omega

/-- Entry point of the word-pattern substitution, starting with no
previous word character (string start); an empty pattern never occurs in
the mapping tables and leaves the content unchanged. -/
def subWordPat (w rep : List Char) (endBound : Bool) (code : List Char) : List Char :=
  match w with
  | [] => code
  | p :: ps => subWordGo p ps rep endBound false code

/-- Embedding of apply_transformations of expand_identifiers.py: for each
(pattern, replacement) entry of the mapping, in order, run the
substitution over the whole content.  The Boolean records whether the
pattern carries a trailing word boundary. -/
def apply_transformations (code : List Char)
    (mappings : List (List Char × List Char × Bool)) : List Char :=
  mappings.foldl (fun code m => subWordPat m.1 m.2.1 m.2.2 code) code

theorem getElem?_processBigintLines (ls : List (List Char)) :
    ∀ (k n : Nat), (processBigintLines k ls)[n]? =
      (ls[n]?).map (fun l => if 73 ≤ k + n ∧ k + n < 307 then fixBigintLine l else l) := by
  induction ls with
  | nil => intro k n; simp [processBigintLines]
  | cons l t ih =>
    intro k n
    cases n with
    | zero => simp [processBigintLines]
    | succ m =>
      have hadd : k + 1 + m = k + (m + 1) := by omega
      simp only [processBigintLines, List.getElem?_cons_succ, ih (k + 1) m, hadd]

/-- C8.  Line-range framing of the bigint pass: fix_bigint_fields.py
rewrites exactly the lines with 1-indexed numbers 74 through 307; every
line outside that range is written back unchanged, and every line inside
it is the result of the per-line substitution chain. -/
theorem bigint_pass_line_range_frame (lines : List (List Char)) (n : Nat) :
    (n + 1 < 74 ∨ 307 < n + 1 → (fixBigintFile lines)[n]? = lines[n]?) ∧
    (74 ≤ n + 1 → n + 1 ≤ 307 → (fixBigintFile lines)[n]? = (lines[n]?).map fixBigintLine) := by
  constructor
  · intro h
    rw [fixBigintFile, getElem?_processBigintLines]
    have hcond : ¬ (73 ≤ 0 + n ∧ 0 + n < 307) := by omega
    simp only [hcond, if_false]
    cases lines[n]? <;> rfl
  · intro h1 h2
    rw [fixBigintFile, getElem?_processBigintLines]
    have hcond : 73 ≤ 0 + n ∧ 0 + n < 307 := by omega
    cases lines[n]? with
    | none => rfl
    | some l => exact congrArg some (if_pos hcond)

/-- Witness for C8 at a concrete five-line file (indices 0 and 1 are
outside the rewritten range). -/
theorem bigint_pass_line_range_frame_witness :
    (fixBigintFile [("a->d").data, ("b.n").data])[0]? = some ("a->d").data ∧
    (fixBigintFile [("a->d").data, ("b.n").data])[1]? = some ("b.n").data := by
  refine ⟨?_, ?_⟩
  · exact (bigint_pass_line_range_frame [("a->d").data, ("b.n").data] 0).1 (by omega)
  · exact (bigint_pass_line_range_frame [("a->d").data, ("b.n").data] 1).1 (by omega)

/-- C9.  Atomicity of the one-off literal patch scripts: each of
fix_npd.py, fix_nfd.py, fix_pragma_ultra_simple.py and
fix_declarations_out.py either finds its hard-coded old pattern and
replaces it, or leaves the file content completely unchanged; when the
expected fragment is absent nothing is modified. -/
theorem literal_patch_scripts_atomic :
    (∀ pat rep c, containsSub pat c = false → fix_npd pat rep c = c) ∧
    (∀ pat rep c, containsSub pat c = false → fix_nfd pat rep c = c) ∧
    (∀ pat rep c, containsSub pat c = false → fix_pragma_ultra_simple pat rep c = c) ∧
    (∀ p1 r1 p2 r2 c, containsSub p1 c = false → containsSub p2 c = false →
      fix_declarations_out p1 r1 p2 r2 c = c) := by
  refine ⟨?_, ?_, ?_, ?_⟩
  · intro pat rep c h; simp [fix_npd, h]
  · intro pat rep c h; simp [fix_nfd, h]
  · intro pat rep c h; simp [fix_pragma_ultra_simple, h]
  · intro p1 r1 p2 r2 c h1 h2
    simp only [fix_declarations_out, h1, Bool.false_eq_true, if_false, h2]

/-- Witness for C9: a content that contains none of the patterns is left
untouched by all four scripts. -/
theorem literal_patch_scripts_atomic_witness :
    fix_npd ("case N_PD:").data ("replacement").data ("int x;").data = ("int x;").data ∧
    fix_nfd ("case N_FD:").data ("replacement").data ("int x;").data = ("int x;").data ∧
    fix_pragma_ultra_simple ("else if(s->k==4)").data ("r").data ("int x;").data
      = ("int x;").data ∧
    fix_declarations_out ("declare void").data ("a").data ("declare i64").data ("b").data
      ("int x;").data = ("int x;").data := by
  refine ⟨?_, ?_, ?_, ?_⟩
  · exact literal_patch_scripts_atomic.1 _ _ _ (by decide)
  · exact literal_patch_scripts_atomic.2.1 _ _ _ (by decide)
  · exact literal_patch_scripts_atomic.2.2.1 _ _ _ (by decide)
  · exact literal_patch_scripts_atomic.2.2.2 _ _ _ _ _ (by decide) (by decide)

/-- C10.  Determinism of the rewriting scripts: the transformations of
fix_field_accesses.py and expand_identifiers.py are pure functions of the
input bytes — two runs on equal input bytes produce equal output bytes,
with no dependence on randomness, time or environment. -/
theorem rewrite_scripts_deterministic (c1 c2 : List Char)
    (mappings : List (List Char × List Char × Bool)) (h : c1 = c2) :
    fix_field_accesses c1 = fix_field_accesses c2 ∧
    apply_transformations c1 mappings = apply_transformations c2 mappings := by
  subst h; exact ⟨rfl, rfl⟩

/-- Witness for C10 at a concrete input and the type-name mapping entry
of expand_identifiers.py. -/
theorem rewrite_scripts_deterministic_witness :
    fix_field_accesses ("U x;").data = fix_field_accesses ("U x;").data ∧
    apply_transformations ("U x;").data
        [(("U").data, ("Unsigned_Big_Integer").data, true)] =
      apply_transformations ("U x;").data
        [(("U").data, ("Unsigned_Big_Integer").data, true)] :=
  rewrite_scripts_deterministic _ _ _ rfl

end Scripts

namespace Engine

/-!
Modelled from the spec: the context-aware identifier rewriting engine of
sections 2 to 8 of the design document has no implementation in the
repository (the repository holds only the legacy regex scripts the
engine replaces), so the engine is modelled here from the words of the
document: a gap-free lexer over C-like source text, rename rules keyed by
(owner type, abbreviated name), binder facts (type bindings for
variables, field types for struct members), a resolver that chains those
facts through member accesses, and a rewriter that substitutes canonical
names only for matched occurrences with a resolved owner type, passing
everything else through byte for byte.
-/

/-- Tab character. -/
def tabChar : Char := Char.ofNat 9

/-- Newline character. -/
def nlChar : Char := Char.ofNat 10

/-- Carriage return character. -/
def crChar : Char := Char.ofNat 13

/-- Double quote character delimiting string literals. -/
def quoteChar : Char := Char.ofNat 34

/-- Single quote character delimiting character literals. -/
def tickChar : Char := Char.ofNat 39

/-- Backslash escape character. -/
def escChar : Char := Char.ofNat 92

/-- First character of an identifier. -/
def identStart (c : Char) : Bool := c.isAlpha || c = '_'

/-- Continuation character of an identifier. -/
def identChar (c : Char) : Bool := c.isAlpha || c.isDigit || c = '_'

/-- Whitespace characters. -/
def wsChar (c : Char) : Bool := c = ' ' || c = tabChar || c = nlChar || c = crChar

/-- Token kinds of the lexer: identifiers, punctuation, the member arrow
operator, literals, comments and whitespace, each carrying its exact byte
span so the input can be reconstructed. -/
inductive TokenKind where
  | ident
  | number
  | strLit
  | charLit
  | comment
  | ws
  | op
  | punct
deriving DecidableEq

/-- A token: kind plus the exact span of characters it covers. -/
structure Token where
  kind : TokenKind
  text : List Char
deriving DecidableEq

/-- Scan the remainder of a quoted literal after its opening delimiter,
honouring backslash escapes; returns the span up to and including the
closing delimiter together with the rest of the input, or none when the
literal is unterminated (a LexError). -/
def scanDelim (q : Char) : List Char → Option (List Char × List Char)
  | [] => none
  | c :: r =>
    if c = q then some ([c], r)
    else if c = escChar then
      match r with
      | [] => none
      | d :: r2 => (scanDelim q r2).map (fun p => (c :: d :: p.1, p.2))
    else (scanDelim q r).map (fun p => (c :: p.1, p.2))

/-- Scan the remainder of a string literal after the opening quote. -/
def scanStr : List Char → Option (List Char × List Char) := scanDelim quoteChar

/-- Scan the remainder of a character literal after the opening quote. -/
def scanChr : List Char → Option (List Char × List Char) := scanDelim tickChar

/-- Scan the remainder of a block comment after the opening slash-star,
up to and including the closing star-slash. -/
def scanBlock : List Char → Option (List Char × List Char)
  | [] => none
  | c :: r =>
    if c = '*' ∧ r.head? = some '/' then some ([c, '/'], r.tail)
    else (scanBlock r).map (fun p => (c :: p.1, p.2))

/-- Not a newline: the continuation condition of a line comment. -/
def notNl (c : Char) : Bool := !(c = nlChar)

/-- One step of the lexer: recognizes the next token at the head of the
input using maximal munch, or fails on empty input or an unterminated
literal or comment. -/
def lexStep : List Char → Option (Token × List Char)
  | [] => none
  | c :: cs =>
    if identStart c then
      some (⟨.ident, c :: cs.takeWhile identChar⟩, cs.dropWhile identChar)
    else if c.isDigit then
      some (⟨.number, c :: cs.takeWhile Char.isDigit⟩, cs.dropWhile Char.isDigit)
    else if wsChar c then
      some (⟨.ws, c :: cs.takeWhile wsChar⟩, cs.dropWhile wsChar)
    else if c = quoteChar then
      (scanStr cs).map (fun p => (⟨.strLit, c :: p.1⟩, p.2))
    else if c = tickChar then
      (scanChr cs).map (fun p => (⟨.charLit, c :: p.1⟩, p.2))
    else if c = '/' then
      if cs.head? = some '/' then
        some (⟨.comment, c :: '/' :: cs.tail.takeWhile notNl⟩, cs.tail.dropWhile notNl)
      else if cs.head? = some '*' then
        (scanBlock cs.tail).map (fun p => (⟨.comment, c :: '*' :: p.1⟩, p.2))
      else some (⟨.punct, [c]⟩, cs)
    else if c = '-' then
      if cs.head? = some '>' then some (⟨.op, [c, '>']⟩, cs.tail)
      else some (⟨.punct, [c]⟩, cs)
    else some (⟨.punct, [c]⟩, cs)

theorem scanDelim_cons (q c : Char) (r : List Char) :
    scanDelim q (c :: r) =
      if c = q then some ([c], r)
      else if c = escChar then
        match r with
        | [] => none
        | d :: r2 => (scanDelim q r2).map (fun p => (c :: d :: p.1, p.2))
      else (scanDelim q r).map (fun p => (c :: p.1, p.2)) := by
  rw [scanDelim.eq_def]

theorem scanDelim_close (q : Char) (r : List Char) :
    scanDelim q (q :: r) = some ([q], r) := by
  rw [scanDelim_cons, if_pos rfl]

theorem scanDelim_esc (q d : Char) (r : List Char) (hne : ¬ escChar = q) :
    scanDelim q (escChar :: d :: r) = (scanDelim q r).map (fun p => (escChar :: d :: p.1, p.2)) := by
  rw [scanDelim_cons, if_neg hne, if_pos rfl]

theorem scanDelim_other (q d : Char) (r : List Char) (h1 : ¬ d = q) (h2 : ¬ d = escChar) :
    scanDelim q (d :: r) = (scanDelim q r).map (fun p => (d :: p.1, p.2)) := by
  rw [scanDelim_cons, if_neg h1, if_neg h2]

theorem scanDelim_reconstruct (q : Char) :
    ∀ cs b r, scanDelim q cs = some (b, r) → b ++ r = cs ∧ b ≠ [] := by
  intro cs
  induction cs using scanDelim.induct q with
  | case1 => intro b r h; simp [scanDelim] at h
  | case2 tail =>
    intro b r h
    rw [scanDelim_close] at h
    cases h
    exact ⟨rfl, by simp⟩
  | case3 hne =>
    intro b r h
    rw [scanDelim_cons, if_neg hne, if_pos rfl] at h
    simp at h
  | case4 d tail hne ih =>
    intro b r h
    rw [scanDelim_esc _ _ _ hne] at h
    cases hs : scanDelim q tail with
    | none => rw [hs] at h; simp at h
    | some p =>
      obtain ⟨b2, r0⟩ := p
      rw [hs] at h
      simp only [Option.map_some', Option.some_inj] at h
      cases h
      obtain ⟨h1, -⟩ := ih _ _ hs
      exact ⟨by simp [← h1], by simp⟩
  | case5 d tail h1 h2 ih =>
    intro b r h
    rw [scanDelim_other _ _ _ h1 h2] at h
    cases hs : scanDelim q tail with
    | none => rw [hs] at h; simp at h
    | some p =>
      obtain ⟨b2, r0⟩ := p
      rw [hs] at h
      simp only [Option.map_some', Option.some_inj] at h
      cases h
      obtain ⟨hb, -⟩ := ih _ _ hs
      exact ⟨by simp [← hb], by simp⟩

theorem scanDelim_self (q : Char) :
    ∀ cs b r, scanDelim q cs = some (b, r) → ∀ r2, scanDelim q (b ++ r2) = some (b, r2) := by
  intro cs
  induction cs using scanDelim.induct q with
  | case1 => intro b r h; simp [scanDelim] at h
  | case2 tail =>
    intro b r h
    rw [scanDelim_close] at h
    cases h
    intro r2
    exact scanDelim_close q r2
  | case3 hne =>
    intro b r h
    rw [scanDelim_cons, if_neg hne, if_pos rfl] at h
    simp at h
  | case4 d tail hne ih =>
    intro b r h
    rw [scanDelim_esc _ _ _ hne] at h
    cases hs : scanDelim q tail with
    | none => rw [hs] at h; simp at h
    | some p =>
      obtain ⟨b2, r0⟩ := p
      rw [hs] at h
      simp only [Option.map_some', Option.some_inj] at h
      cases h
      intro r2
      rw [List.cons_append, List.cons_append, scanDelim_esc _ _ _ hne, ih _ _ hs r2]
      rfl
  | case5 d tail h1 h2 ih =>
    intro b r h
    rw [scanDelim_other _ _ _ h1 h2] at h
    cases hs : scanDelim q tail with
    | none => rw [hs] at h; simp at h
    | some p =>
      obtain ⟨b2, r0⟩ := p
      rw [hs] at h
      simp only [Option.map_some', Option.some_inj] at h
      cases h
      intro r2
      rw [List.cons_append, scanDelim_other _ _ _ h1 h2, ih _ _ hs r2]
      rfl

theorem scanBlock_cons (c : Char) (r : List Char) :
    scanBlock (c :: r) =
      if c = '*' ∧ r.head? = some '/' then some ([c, '/'], r.tail)
      else (scanBlock r).map (fun p => (c :: p.1, p.2)) := by
  rw [scanBlock.eq_def]

theorem scanBlock_reconstruct : ∀ cs b r, scanBlock cs = some (b, r) → b ++ r = cs ∧ b ≠ [] := by
  intro cs
  induction cs with
  | nil => intro b r h; simp [scanBlock] at h
  | cons c tl ih =>
    intro b r h
    rw [scanBlock_cons] at h
    by_cases hc : c = '*' ∧ tl.head? = some '/'
    · rw [if_pos hc] at h
      cases h
      obtain ⟨hc1, hc2⟩ := hc
      have htl : tl = '/' :: tl.tail := by
        cases tl with
        | nil => simp at hc2
        | cons x xs =>
          simp only [List.head?_cons, Option.some_inj] at hc2
          simp [hc2]
      refine ⟨?_, by simp⟩
      rw [hc1]
      conv_rhs => rw [htl]
      rfl
    · rw [if_neg hc] at h
      cases hs : scanBlock tl with
      | none => rw [hs] at h; simp at h
      | some p =>
        obtain ⟨b2, r0⟩ := p
        rw [hs] at h
        simp only [Option.map_some', Option.some_inj] at h
        cases h
        obtain ⟨h1, -⟩ := ih _ _ hs
        exact ⟨by simp [← h1], by simp⟩

theorem scanBlock_self : ∀ cs b r, scanBlock cs = some (b, r) →
    ∀ r2, scanBlock (b ++ r2) = some (b, r2) := by
  intro cs
  induction cs with
  | nil => intro b r h; simp [scanBlock] at h
  | cons c tl ih =>
    intro b r h
    rw [scanBlock_cons] at h
    by_cases hc : c = '*' ∧ tl.head? = some '/'
    · rw [if_pos hc] at h
      cases h
      obtain ⟨hc1, -⟩ := hc
      intro r2
      rw [hc1]
      show scanBlock ('*' :: '/' :: r2) = some (['*', '/'], r2)
      rw [scanBlock_cons, if_pos ⟨rfl, by simp⟩]
      rfl
    · rw [if_neg hc] at h
      cases hs : scanBlock tl with
      | none => rw [hs] at h; simp at h
      | some p =>
        obtain ⟨b2, r0⟩ := p
        rw [hs] at h
        simp only [Option.map_some', Option.some_inj] at h
        cases h
        intro r2
        obtain ⟨hrec, hb2⟩ := scanBlock_reconstruct tl b2 _ hs
        obtain ⟨x, xs, rfl⟩ := List.exists_cons_of_ne_nil hb2
        have hhd : tl.head? = some x := by rw [← hrec]; rfl
        have hcond : ¬ (c = '*' ∧ ((x :: xs) ++ r2).head? = some '/') := by
          intro hand
          exact hc ⟨hand.1, by simpa [hhd] using hand.2⟩
        rw [List.cons_append, scanBlock_cons, if_neg hcond, ih _ _ hs r2]
        rfl

theorem lexStep_cons (c : Char) (cs : List Char) :
    lexStep (c :: cs) =
      if identStart c then
        some (⟨.ident, c :: cs.takeWhile identChar⟩, cs.dropWhile identChar)
      else if c.isDigit then
        some (⟨.number, c :: cs.takeWhile Char.isDigit⟩, cs.dropWhile Char.isDigit)
      else if wsChar c then
        some (⟨.ws, c :: cs.takeWhile wsChar⟩, cs.dropWhile wsChar)
      else if c = quoteChar then
        (scanStr cs).map (fun p => (⟨.strLit, c :: p.1⟩, p.2))
      else if c = tickChar then
        (scanChr cs).map (fun p => (⟨.charLit, c :: p.1⟩, p.2))
      else if c = '/' then
        if cs.head? = some '/' then
          some (⟨.comment, c :: '/' :: cs.tail.takeWhile notNl⟩, cs.tail.dropWhile notNl)
        else if cs.head? = some '*' then
          (scanBlock cs.tail).map (fun p => (⟨.comment, c :: '*' :: p.1⟩, p.2))
        else some (⟨.punct, [c]⟩, cs)
      else if c = '-' then
        if cs.head? = some '>' then some (⟨.op, [c, '>']⟩, cs.tail)
        else some (⟨.punct, [c]⟩, cs)
      else some (⟨.punct, [c]⟩, cs) := by
  rw [lexStep.eq_def]

theorem lexStep_reconstruct :
    ∀ cs t r, lexStep cs = some (t, r) → t.text ++ r = cs ∧ t.text ≠ [] := by
  intro cs t r h
  cases cs with
  | nil => simp [lexStep] at h
  | cons c cs =>
    rw [lexStep_cons] at h
    by_cases h1 : identStart c
    · rw [if_pos h1] at h
      cases h
      exact ⟨by simp, by simp⟩
    rw [if_neg h1] at h
    by_cases h2 : c.isDigit
    · rw [if_pos h2] at h
      cases h
      exact ⟨by simp, by simp⟩
    rw [if_neg h2] at h
    by_cases h3 : wsChar c
    · rw [if_pos h3] at h
      cases h
      exact ⟨by simp, by simp⟩
    rw [if_neg h3] at h
    by_cases h4 : c = quoteChar
    · rw [if_pos h4] at h
      cases hs : scanStr cs with
      | none => rw [hs] at h; simp at h
      | some p =>
        obtain ⟨b, r0⟩ := p
        rw [hs] at h
        simp only [Option.map_some', Option.some_inj] at h
        cases h
        obtain ⟨hb, -⟩ := scanDelim_reconstruct quoteChar cs b _ hs
        exact ⟨by simp [← hb], by simp⟩
    rw [if_neg h4] at h
    by_cases h5 : c = tickChar
    · rw [if_pos h5] at h
      cases hs : scanChr cs with
      | none => rw [hs] at h; simp at h
      | some p =>
        obtain ⟨b, r0⟩ := p
        rw [hs] at h
        simp only [Option.map_some', Option.some_inj] at h
        cases h
        obtain ⟨hb, -⟩ := scanDelim_reconstruct tickChar cs b _ hs
        exact ⟨by simp [← hb], by simp⟩
    rw [if_neg h5] at h
    by_cases h6 : c = '/'
    · rw [if_pos h6] at h
      by_cases h7 : cs.head? = some '/'
      · rw [if_pos h7] at h
        cases h
        have hcs : cs = '/' :: cs.tail := by
          cases cs with
          | nil => simp at h7
          | cons x xs =>
            simp only [List.head?_cons, Option.some_inj] at h7
            simp [h7]
        refine ⟨?_, by simp⟩
        conv_rhs => rw [hcs]
        simp
      rw [if_neg h7] at h
      by_cases h8 : cs.head? = some '*'
      · rw [if_pos h8] at h
        cases hs : scanBlock cs.tail with
        | none => rw [hs] at h; simp at h
        | some p =>
          obtain ⟨b, r0⟩ := p
          rw [hs] at h
          simp only [Option.map_some', Option.some_inj] at h
          cases h
          obtain ⟨hb, -⟩ := scanBlock_reconstruct cs.tail b _ hs
          have hcs : cs = '*' :: cs.tail := by
            cases cs with
            | nil => simp at h8
            | cons x xs =>
              simp only [List.head?_cons, Option.some_inj] at h8
              simp [h8]
          refine ⟨?_, by simp⟩
          conv_rhs => rw [hcs]
          simp [← hb]
      · rw [if_neg h8] at h
        cases h
        exact ⟨rfl, by simp⟩
    rw [if_neg h6] at h
    by_cases h9 : c = '-'
    · rw [if_pos h9] at h
      by_cases h10 : cs.head? = some '>'
      · rw [if_pos h10] at h
        cases h
        have hcs : cs = '>' :: cs.tail := by
          cases cs with
          | nil => simp at h10
          | cons x xs =>
            simp only [List.head?_cons, Option.some_inj] at h10
            simp [h10]
        refine ⟨?_, by simp⟩
        conv_rhs => rw [hcs]
        rfl
      · rw [if_neg h10] at h
        cases h
        exact ⟨rfl, by simp⟩
    · rw [if_neg h9] at h
      cases h
      exact ⟨rfl, by simp⟩

theorem lexStep_length (cs : List Char) (t : Token) (r : List Char)
    (h : lexStep cs = some (t, r)) : r.length < cs.length := by
  obtain ⟨hcat, hne⟩ := lexStep_reconstruct cs t r h
  have : t.text.length + r.length = cs.length := by
    rw [← hcat]; simp
  have : 0 < t.text.length := List.length_pos.mpr hne
  omega

/-- Fuel-indexed lexer loop: repeatedly take the next token with lexStep
until the input is exhausted; fails when a step fails (LexError).  The
fuel argument only justifies termination and is irrelevant whenever it is
at least the input length. -/
def lexF : Nat → List Char → Option (List Token)
  | _, [] => some []
  | 0, _ :: _ => none
  | n + 1, c :: cs =>
    match lexStep (c :: cs) with
    | none => none
    | some (t, r) => (lexF n r).map (fun ts => t :: ts)

/-- The lexer: an ordered, gap-free token sequence covering every byte of
the input, or none on a lexing error. -/
def lex (cs : List Char) : Option (List Token) := lexF cs.length cs

theorem lexF_adequate :
    ∀ n m cs, cs.length ≤ n → cs.length ≤ m → lexF n cs = lexF m cs := by
  intro n
  induction n with
  | zero =>
    intro m cs hn _
    cases cs with
    | nil => cases m <;> rfl
    | cons c cs => simp at hn
  | succ n ih =>
    intro m cs hn hm
    cases cs with
    | nil => cases m <;> rfl
    | cons c cs =>
      cases m with
      | zero => simp at hm
      | succ m =>
        show (match lexStep (c :: cs) with
          | none => none
          | some (t, r) => (lexF n r).map (fun ts => t :: ts)) =
          (match lexStep (c :: cs) with
          | none => none
          | some (t, r) => (lexF m r).map (fun ts => t :: ts))
        cases hs : lexStep (c :: cs) with
        | none => rfl
        | some p =>
          obtain ⟨t, r⟩ := p
          have hlt := lexStep_length _ _ _ hs
          simp only [List.length_cons] at hlt hn hm
          show (lexF n r).map (fun ts => t :: ts) = (lexF m r).map (fun ts => t :: ts)
          rw [ih m r (by omega) (by omega)]

theorem lex_nil : lex [] = some [] := rfl

theorem lex_cons_eq (c : Char) (cs : List Char) :
    lex (c :: cs) = match lexStep (c :: cs) with
      | none => none
      | some (t, r) => (lex r).map (fun ts => t :: ts) := by
  show (match lexStep (c :: cs) with
    | none => none
    | some (t, r) => (lexF cs.length r).map (fun ts => t :: ts)) = _
  cases hs : lexStep (c :: cs) with
  | none => rfl
  | some p =>
    obtain ⟨t, r⟩ := p
    have hlt := lexStep_length _ _ _ hs
    simp only [List.length_cons] at hlt
    show (lexF cs.length r).map (fun ts => t :: ts) = (lex r).map (fun ts => t :: ts)
    rw [lexF_adequate cs.length r.length r (by omega) (by omega)]
    rfl

/-- Concatenation of the byte spans of a token list; the lexer contract
is that this reconstructs the input exactly. -/
def catTexts : List Token → List Char
  | [] => []
  | t :: ts => t.text ++ catTexts ts

theorem lex_catTexts : ∀ ts cs, lex cs = some ts → catTexts ts = cs := by
  intro ts
  induction ts with
  | nil =>
    intro cs h
    cases cs with
    | nil => rfl
    | cons c cs =>
      rw [lex_cons_eq] at h
      cases hs : lexStep (c :: cs) with
      | none => rw [hs] at h; simp at h
      | some p =>
        obtain ⟨t, r⟩ := p
        rw [hs] at h
        simp at h
  | cons t ts ih =>
    intro cs h
    cases cs with
    | nil => rw [lex_nil] at h; simp at h
    | cons c cs =>
      rw [lex_cons_eq] at h
      cases hs : lexStep (c :: cs) with
      | none => rw [hs] at h; simp at h
      | some p =>
        obtain ⟨t0, r⟩ := p
        rw [hs] at h
        have h2 : (lex r).map (fun ts0 => t0 :: ts0) = some (t :: ts) := h
        cases hr : lex r with
        | none => rw [hr] at h2; simp at h2
        | some ts0 =>
          rw [hr] at h2
          simp only [Option.map_some', Option.some_inj, List.cons.injEq] at h2
          obtain ⟨rfl, rfl⟩ := h2
          show t0.text ++ catTexts ts0 = c :: cs
          rw [ih r hr]
          exact (lexStep_reconstruct _ _ _ hs).1

/-- Modelled from the spec: a rename rule keyed by owner type (or the
sentinel "any") and abbreviated name, mapping to the canonical name.  The
applies-to discriminator of the design document is not needed for the
properties proved here, which concern member and whole-program renames. -/
structure RenameRule where
  ownerType : String
  abbreviated : String
  canonical : String
deriving DecidableEq

/-- Modelled from the spec: a binder fact giving the declared type name
and pointer depth of a variable or parameter, as recorded by the
Declaration Binder pass before rewriting begins. -/
structure TypeBinding where
  name : String
  declaredType : String
  pointerDepth : Nat
deriving DecidableEq

/-- Modelled from the spec: a field-type fact (struct type name, field
name, declared type name of the field) derived from struct definitions
and used to resolve chained accesses. -/
structure FieldType where
  structName : String
  fieldName : String
  fieldTypeName : String
deriving DecidableEq

/-- Look up the declared type of a variable among the binder facts. -/
def lookupBinding (bs : List TypeBinding) (x : String) : Option String :=
  (bs.find? (fun b => b.name == x)).map (fun b => b.declaredType)

/-- Look up the declared type of a field of a struct. -/
def lookupField (fs : List FieldType) (s f : String) : Option String :=
  (fs.find? (fun e => e.structName == s && e.fieldName == f)).map
    (fun e => e.fieldTypeName)

/-- Look up the rule for an (owner type, abbreviated name) key. -/
def ruleFor (rules : List RenameRule) (owner name : String) : Option RenameRule :=
  rules.find? (fun r => r.ownerType == owner && r.abbreviated == name)

/-- Whether a name matches the abbreviated name of any rule; used by the
coverage reporter for occurrences whose owner type is unresolved. -/
def matchesAbbrev (rules : List RenameRule) (name : String) : Bool :=
  rules.any (fun r => r.abbreviated == name)

/-- Modelled from the spec: the transient resolver state of the rewriting
pass — the static type of the member chain built so far (none when
unknown) and whether the previous significant token was a member access
operator. -/
structure RwState where
  chainType : Option String
  afterOp : Bool
deriving DecidableEq

/-- Initial rewriter state: no chain, not after an operator. -/
def initState : RwState := ⟨none, false⟩

/-- Whether a token is a member access operator (arrow or dot). -/
def isMemberOp (t : Token) : Bool :=
  (t.kind == TokenKind.op && t.text == ['-', '>']) ||
    (t.kind == TokenKind.punct && t.text == ['.'])

/-- Modelled from the spec: one step of the Rewriter/Emitter.  Whitespace
and comments pass through without touching the resolver state.  An
identifier after a member operator is a member occurrence: with a
resolved owner type and a matching rule it is emitted as the canonical
name, otherwise unchanged; an unresolved owner with a name matching some
rule abbreviation is recorded for the coverage report, never renamed.  A
chain-start identifier is renamed only through an "any"-owner rule and
binds the chain to the identifier declared type.  Member operators keep
the chain and set the after-operator flag; every other token resets the
resolver state. -/
def rwStep (rules : List RenameRule) (binds : List TypeBinding) (fields : List FieldType)
    (st : RwState) (t : Token) : Token × RwState × List String :=
  match t.kind with
  | .ws => (t, st, [])
  | .comment => (t, st, [])
  | .ident =>
    let w : String := String.mk t.text
    if st.afterOp then
      match st.chainType with
      | some owner =>
        match ruleFor rules owner w with
        | some r => (⟨.ident, r.canonical.data⟩, ⟨lookupField fields owner w, false⟩, [])
        | none => (t, ⟨lookupField fields owner w, false⟩, [])
      | none => (t, ⟨none, false⟩, if matchesAbbrev rules w then [w] else [])
    else
      match ruleFor rules "any" w with
      | some r => (⟨.ident, r.canonical.data⟩, ⟨lookupBinding binds w, false⟩, [])
      | none => (t, ⟨lookupBinding binds w, false⟩, [])
  | .op => if isMemberOp t then (t, ⟨st.chainType, true⟩, []) else (t, ⟨none, false⟩, [])
  | .punct => if isMemberOp t then (t, ⟨st.chainType, true⟩, []) else (t, ⟨none, false⟩, [])
  | .number => (t, ⟨none, false⟩, [])
  | .strLit => (t, ⟨none, false⟩, [])
  | .charLit => (t, ⟨none, false⟩, [])

/-- The rewriting pass over a token stream: emitted tokens, final state,
and the coverage report entries in order. -/
def rwRun (rules : List RenameRule) (binds : List TypeBinding) (fields : List FieldType) :
    RwState → List Token → List Token × RwState × List String
  | st, [] => ([], st, [])
  | st, t :: ts =>
    let p := rwStep rules binds fields st t
    let q := rwRun rules binds fields p.2.1 ts
    (p.1 :: q.1, q.2.1, p.2.2 ++ q.2.2)

/-- Token-level rewrite of a whole stream from the initial state. -/
def rewriteTokens (rules : List RenameRule) (binds : List TypeBinding)
    (fields : List FieldType) (ts : List Token) : List Token :=
  (rwRun rules binds fields initState ts).1

/-- Modelled from the spec: the full rewrite of one translation unit —
lex, then a single linear rewriting pass, then emission of the rewritten
byte stream; none on a lexing error. -/
def rewriteSource (rules : List RenameRule) (binds : List TypeBinding)
    (fields : List FieldType) (input : List Char) : Option (List Char) :=
  (lex input).map (fun ts => catTexts (rewriteTokens rules binds fields ts))

/-- Modelled from the spec: the coverage report of a run — every
occurrence that matched an abbreviation but whose owner type could not be
resolved. -/
def coverageReport (rules : List RenameRule) (binds : List TypeBinding)
    (fields : List FieldType) (input : List Char) : Option (List String) :=
  (lex input).map (fun ts => (rwRun rules binds fields initState ts).2.2)

/-- Whether the rule list contains two rules with the same
(owner type, abbreviated name) key. -/
def dupKey : List RenameRule → Bool
  | [] => false
  | r :: rs =>
    rs.any (fun r2 => r2.ownerType == r.ownerType && r2.abbreviated == r.abbreviated) ||
      dupKey rs

/-- Modelled from the spec: rule-table loading; duplicate
(owner type, abbreviated name) keys are rejected with a ConfigError
before any file is processed. -/
def loadRules (rs : List RenameRule) : Except String (List RenameRule) :=
  if dupKey rs then Except.error "ConfigError: duplicate rule key" else Except.ok rs

/-- Modelled from the spec: the command pipeline for one input file —
load the rule table, then lex and rewrite the file; a ConfigError aborts
before the input is read, a LexError aborts that file. -/
def runPipeline (rs : List RenameRule) (binds : List TypeBinding)
    (fields : List FieldType) (input : List Char) : Except String (List Char) :=
  match loadRules rs with
  | Except.error e => Except.error e
  | Except.ok rules =>
    match rewriteSource rules binds fields input with
    | none => Except.error "LexError"
    | some out => Except.ok out

/-- C2.  Type disambiguation: with struct types Pair (field n of type
int) and Box (fields s of type char and n of type int), rules mapping
(Pair, n) to count and (Box, n) to size, and variables p of type Pair and
b of type Box, the input p.n = 1; b.n = 2; rewrites to
p.count = 1; b.size = 2; — the same member token n is renamed by the
static type of its base, not by its spelling. -/
theorem type_disambiguation :
    rewriteSource
        [⟨"Pair", "n", "count"⟩, ⟨"Box", "n", "size"⟩]
        [⟨"p", "Pair", 0⟩, ⟨"b", "Box", 0⟩]
        [⟨"Pair", "n", "int"⟩, ⟨"Box", "s", "char"⟩, ⟨"Box", "n", "int"⟩]
        ("p.n = 1; b.n = 2;").data
      = some ("p.count = 1; b.size = 2;").data := by
  rfl

/-- C7.  Chained access: with struct A holding a field f of type struct B
pointer and struct B holding a field s, rules (A, f) to field and (B, s)
to size, and a variable a of pointer type A, the input a->f->s rewrites
to a->field->size — each link of the chain is resolved from the field
type recorded for the preceding struct. -/
theorem chained_access :
    rewriteSource
        [⟨"A", "f", "field"⟩, ⟨"B", "s", "size"⟩]
        [⟨"a", "A", 1⟩]
        [⟨"A", "f", "B"⟩, ⟨"B", "s", "int"⟩]
        ("a->f->s").data
      = some ("a->field->size").data := by
  rfl

/-- C5.  Conflicting rule detection: loading a rule table holding the
two differently targeted rules (Box, n) to size and (Box, n) to count
fails with a ConfigError, before any input is read or rewritten —
whatever the binder facts and the input file are. -/
theorem conflicting_rule_detection (binds : List TypeBinding) (fields : List FieldType)
    (input : List Char) :
    runPipeline [⟨"Box", "n", "size"⟩, ⟨"Box", "n", "count"⟩] binds fields input
      = Except.error "ConfigError: duplicate rule key" := by
  rfl

theorem rwRun_append (rules : List RenameRule) (binds : List TypeBinding)
    (fields : List FieldType) :
    ∀ (xs ys : List Token) (st : RwState),
      rwRun rules binds fields st (xs ++ ys) =
        ((rwRun rules binds fields st xs).1 ++
            (rwRun rules binds fields (rwRun rules binds fields st xs).2.1 ys).1,
          (rwRun rules binds fields (rwRun rules binds fields st xs).2.1 ys).2.1,
          (rwRun rules binds fields st xs).2.2 ++
            (rwRun rules binds fields (rwRun rules binds fields st xs).2.1 ys).2.2) := by
  intro xs
  induction xs with
  | nil => intro ys st; simp [rwRun]
  | cons x xs ih =>
    intro ys st
    show rwRun rules binds fields st (x :: (xs ++ ys)) = _
    rw [rwRun, rwRun, ih]
    simp [rwRun]

/-- C4.  Unresolved passthrough: whenever the rewriting pass reaches a
member identifier while the owner type of its base could not be resolved
(chain type none after a member operator), the identifier is emitted
unchanged in place, and if its name matches the abbreviated name of any
rule the occurrence is recorded in the coverage report; the engine never
renames such an occurrence. -/
theorem unresolved_passthrough (rules : List RenameRule) (binds : List TypeBinding)
    (fields : List FieldType) (pre post : List Token) (w : List Char)
    (hchain : (rwRun rules binds fields initState pre).2.1.chainType = none)
    (hop : (rwRun rules binds fields initState pre).2.1.afterOp = true) :
    (rwRun rules binds fields initState (pre ++ ⟨TokenKind.ident, w⟩ :: post)).1 =
      (rwRun rules binds fields initState pre).1 ++ ⟨TokenKind.ident, w⟩ ::
        (rwRun rules binds fields ⟨none, false⟩ post).1 ∧
    (matchesAbbrev rules (String.mk w) = true →
      String.mk w ∈ (rwRun rules binds fields initState
        (pre ++ ⟨TokenKind.ident, w⟩ :: post)).2.2) := by
  have hst : (rwRun rules binds fields initState pre).2.1 = ⟨none, true⟩ := by
    cases h : (rwRun rules binds fields initState pre).2.1 with
    | mk ct ao =>
      rw [h] at hchain hop
      simp only at hchain hop
      rw [hchain, hop]
  have hstep : rwStep rules binds fields ⟨none, true⟩ ⟨TokenKind.ident, w⟩ =
      (⟨TokenKind.ident, w⟩, ⟨none, false⟩,
        if matchesAbbrev rules (String.mk w) then [String.mk w] else []) := by
    rfl
  rw [rwRun_append, hst]
  constructor
  · show _ ++ (rwRun rules binds fields ⟨none, true⟩ (⟨TokenKind.ident, w⟩ :: post)).1 = _
    rw [rwRun, hstep]
  · intro hm
    show String.mk w ∈ _ ++ (rwRun rules binds fields ⟨none, true⟩
      (⟨TokenKind.ident, w⟩ :: post)).2.2
    rw [rwRun, hstep]
    simp only [hm, if_true]
    exact List.mem_append_right _ (List.mem_append_left _ (List.mem_singleton.mpr rfl))

/-- Witness for C4: concrete run where the base q has no binding, so the
member n passes through unchanged and is reported. -/
theorem unresolved_passthrough_witness :
    (rwRun [⟨"Pair", "n", "count"⟩] [] [] initState
        ([⟨TokenKind.ident, ("q").data⟩, ⟨TokenKind.punct, ['.']⟩] ++
          ⟨TokenKind.ident, ("n").data⟩ :: [])).1 =
      (rwRun [⟨"Pair", "n", "count"⟩] [] [] initState
          [⟨TokenKind.ident, ("q").data⟩, ⟨TokenKind.punct, ['.']⟩]).1 ++
        ⟨TokenKind.ident, ("n").data⟩ ::
          (rwRun [⟨"Pair", "n", "count"⟩] [] [] ⟨none, false⟩ []).1 ∧
    (matchesAbbrev [⟨"Pair", "n", "count"⟩] (String.mk ("n").data) = true →
      String.mk ("n").data ∈ (rwRun [⟨"Pair", "n", "count"⟩] [] [] initState
        ([⟨TokenKind.ident, ("q").data⟩, ⟨TokenKind.punct, ['.']⟩] ++
          ⟨TokenKind.ident, ("n").data⟩ :: [])).2.2) :=
  unresolved_passthrough [⟨"Pair", "n", "count"⟩] [] []
    [⟨TokenKind.ident, ("q").data⟩, ⟨TokenKind.punct, ['.']⟩] [] (("n").data)
    (by rfl) (by rfl)

theorem rwStep_emit (rules : List RenameRule) (binds : List TypeBinding)
    (fields : List FieldType) (st : RwState) (t : Token) :
    (rwStep rules binds fields st t).1 = t ∨
    ∃ r ∈ rules, (rwStep rules binds fields st t).1 = ⟨TokenKind.ident, r.canonical.data⟩ ∧
      t.kind = TokenKind.ident ∧ r.abbreviated = String.mk t.text ∧
      ((st.afterOp = true ∧ st.chainType = some r.ownerType) ∨
        (st.afterOp = false ∧ r.ownerType = "any")) := by
  obtain ⟨k, txt⟩ := t
  cases k
  case ws => exact Or.inl rfl
  case comment => exact Or.inl rfl
  case number => exact Or.inl rfl
  case strLit => exact Or.inl rfl
  case charLit => exact Or.inl rfl
  case op =>
    by_cases h : isMemberOp ⟨TokenKind.op, txt⟩ <;> simp [rwStep, h]
  case punct =>
    by_cases h : isMemberOp ⟨TokenKind.punct, txt⟩ <;> simp [rwStep, h]
  case ident =>
    by_cases hop : st.afterOp = true
    · cases hchain : st.chainType with
      | none =>
        left
        simp [rwStep, hop, hchain]
      | some owner =>
        cases hr : ruleFor rules owner (String.mk txt) with
        | none => left; simp [rwStep, hop, hchain, hr]
        | some r =>
          right
          have hp := List.find?_some hr
          simp only [Bool.and_eq_true, beq_iff_eq] at hp
          refine ⟨r, List.mem_of_find?_eq_some hr, ?_, rfl, hp.2, Or.inl ⟨hop, ?_⟩⟩
          · simp [rwStep, hop, hchain, hr]
          · rw [hp.1]
    · have hop2 : st.afterOp = false := by
        revert hop; cases st.afterOp <;> simp
      cases hr : ruleFor rules "any" (String.mk txt) with
      | none => left; simp [rwStep, hop2, hr]
      | some r =>
        right
        have hp := List.find?_some hr
        simp only [Bool.and_eq_true, beq_iff_eq] at hp
        refine ⟨r, List.mem_of_find?_eq_some hr, ?_, rfl, hp.2, Or.inr ⟨hop2, hp.1⟩⟩
        simp [rwStep, hop2, hr]

theorem rwRun_forall2 (rules : List RenameRule) (binds : List TypeBinding)
    (fields : List FieldType) :
    ∀ (ts : List Token) (st : RwState),
      List.Forall₂ (fun t o =>
        o.kind = t.kind ∧ (t.kind ≠ TokenKind.ident → o = t) ∧
        (o.text = t.text ∨ ∃ r ∈ rules, o.text = r.canonical.data ∧
          t.kind = TokenKind.ident ∧ r.abbreviated = String.mk t.text))
        ts (rwRun rules binds fields st ts).1 := by
  intro ts
  induction ts with
  | nil => intro st; exact List.Forall₂.nil
  | cons t ts ih =>
    intro st
    show List.Forall₂ _ (t :: ts) ((rwStep rules binds fields st t).1 ::
      (rwRun rules binds fields (rwStep rules binds fields st t).2.1 ts).1)
    refine List.Forall₂.cons ?_ (ih _)
    rcases rwStep_emit rules binds fields st t with h | ⟨r, hmem, hout, hkind, habbr, -⟩
    · rw [h]
      exact ⟨rfl, fun _ => rfl, Or.inl rfl⟩
    · rw [hout]
      refine ⟨?_, ?_, Or.inr ⟨r, hmem, rfl, hkind, habbr⟩⟩
      · rw [hkind]
      · intro hne
        exact absurd hkind hne

/-- C1.  Conservativeness: for every input accepted by the lexer, the
output decomposes token by token over a gap-free covering of the input;
each emitted token is either the input token copied verbatim, or an
identifier replaced by the canonical name of a rule of the table whose
abbreviated name is exactly the matched identifier; tokens that are not
identifiers — whitespace, comments, string and character literals,
numbers, operators — are emitted byte-identical.  Moreover a single step
substitutes a canonical name only when the occurrence resolved: either a
member occurrence whose chain type equals the rule owner type, or a
chain-start occurrence under an "any"-owner rule. -/
theorem conservativeness (rules : List RenameRule) (binds : List TypeBinding)
    (fields : List FieldType) (input out : List Char)
    (h : rewriteSource rules binds fields input = some out) :
    (∃ ts, lex input = some ts ∧ catTexts ts = input ∧
      out = catTexts (rewriteTokens rules binds fields ts) ∧
      List.Forall₂ (fun t o =>
        o.kind = t.kind ∧ (t.kind ≠ TokenKind.ident → o = t) ∧
        (o.text = t.text ∨ ∃ r ∈ rules, o.text = r.canonical.data ∧
          t.kind = TokenKind.ident ∧ r.abbreviated = String.mk t.text))
        ts (rewriteTokens rules binds fields ts)) ∧
    (∀ st t, (rwStep rules binds fields st t).1 = t ∨
      ∃ r ∈ rules, (rwStep rules binds fields st t).1 = ⟨TokenKind.ident, r.canonical.data⟩ ∧
        t.kind = TokenKind.ident ∧ r.abbreviated = String.mk t.text ∧
        ((st.afterOp = true ∧ st.chainType = some r.ownerType) ∨
          (st.afterOp = false ∧ r.ownerType = "any"))) := by
  constructor
  · cases hl : lex input with
    | none => rw [rewriteSource, hl] at h; simp at h
    | some ts =>
      rw [rewriteSource, hl] at h
      simp only [Option.map_some', Option.some_inj] at h
      exact ⟨ts, rfl, lex_catTexts ts input hl, h.symm,
        rwRun_forall2 rules binds fields ts initState⟩
  · intro st t
    exact rwStep_emit rules binds fields st t

/-- Witness for C1 on an input with a comment, a resolved member access
and an unresolved one. -/
theorem conservativeness_witness :
    ∃ ts, lex (("p.n = q.n; /* n */ x->n").data) = some ts ∧
      catTexts ts = (("p.n = q.n; /* n */ x->n").data) ∧
      (("p.count = q.n; /* n */ x->n").data) =
        catTexts (rewriteTokens [⟨"Pair", "n", "count"⟩] [⟨"p", "Pair", 0⟩] [] ts) ∧
      List.Forall₂ (fun t o =>
        o.kind = t.kind ∧ (t.kind ≠ TokenKind.ident → o = t) ∧
        (o.text = t.text ∨ ∃ r ∈ [(⟨"Pair", "n", "count"⟩ : RenameRule)],
          o.text = r.canonical.data ∧
          t.kind = TokenKind.ident ∧ r.abbreviated = String.mk t.text))
        ts (rewriteTokens [⟨"Pair", "n", "count"⟩] [⟨"p", "Pair", 0⟩] [] ts) :=
  (conservativeness [⟨"Pair", "n", "count"⟩] [⟨"p", "Pair", 0⟩] []
    (("p.n = q.n; /* n */ x->n").data) (("p.count = q.n; /* n */ x->n").data) (by rfl)).1

/-- Well-formed identifier text: non-empty, an identifier-start
character followed by identifier characters.  Canonical names of a valid
rule table satisfy this. -/
def identTextOK : List Char → Bool
  | [] => false
  | c :: cs => identStart c && cs.all identChar

/-- Whether a comment token span is a line comment. -/
def lineComment : List Char → Bool
  | '/' :: '/' :: _ => true
  | _ => false

/-- The character class allowed to follow a token so that re-lexing the
concatenation recovers the token boundary: a maximal-munch token must not
be extensible by the first character after it, and a line comment must be
closed by a newline (or the end of input). -/
def boundOK (t : Token) (c : Char) : Bool :=
  match t.kind with
  | .ident => !identChar c
  | .number => !c.isDigit
  | .ws => !wsChar c
  | .comment => if lineComment t.text then c = nlChar else true
  | .op => true
  | .strLit => true
  | .charLit => true
  | .punct =>
    if t.text = ['/'] then !(c = '/') && !(c = '*')
    else if t.text = ['-'] then !(c = '>') else true

/-- Boundary condition of a token against the first character of the
following input. -/
def headBound (t : Token) (r : List Char) : Prop :=
  ∀ c, r.head? = some c → boundOK t c = true

/-- A token fits when re-lexing its own text followed by any
boundary-respecting rest recovers exactly the token and the rest. -/
def fits (t : Token) : Prop :=
  ∀ r, headBound t r → lexStep (t.text ++ r) = some (t, r)

/-- Boundary condition between adjacent tokens. -/
def glue (a b : Token) : Prop :=
  ∀ c, b.text.head? = some c → boundOK a c = true

theorem fits_text_ne_nil {t : Token} (h : fits t) : t.text ≠ [] := by
  intro hnil
  have := h [] (by intro c hc; simp at hc)
  rw [hnil] at this
  simp [lexStep] at this

theorem isAlpha_not_digit (c : Char) (h : c.isAlpha = true) : c.isDigit = false := by
  cases hd : c.isDigit with
  | false => rfl
  | true =>
    exfalso
    simp only [Char.isAlpha, Char.isUpper, Char.isLower, Bool.or_eq_true, Bool.and_eq_true,
      decide_eq_true_eq] at h
    simp only [Char.isDigit, Bool.and_eq_true, decide_eq_true_eq] at hd
    obtain ⟨hd1, hd2⟩ := hd
    rcases h with ⟨h1, h2⟩ | ⟨h1, h2⟩
    · exact absurd (UInt32.le_trans h1 hd2) (by decide)
    · exact absurd (UInt32.le_trans h1 hd2) (by decide)

theorem identStart_identChar (c : Char) (h : identStart c = true) : identChar c = true := by
  simp only [identStart, Bool.or_eq_true] at h
  simp only [identChar, Bool.or_eq_true]
  rcases h with h | h
  · exact Or.inl (Or.inl h)
  · exact Or.inr h

theorem identStart_not_digit (c : Char) (h : identStart c = true) : c.isDigit = false := by
  simp only [identStart, Bool.or_eq_true, decide_eq_true_eq] at h
  rcases h with h | h
  · exact isAlpha_not_digit c h
  · rw [h]; rfl

theorem identStart_not_ws (c : Char) (h : identStart c = true) : wsChar c = false := by
  cases hw : wsChar c with
  | false => rfl
  | true =>
    exfalso
    simp only [wsChar, Bool.or_eq_true, decide_eq_true_eq] at hw
    rcases hw with ((hw | hw) | hw) | hw <;> subst hw <;> exact absurd h (by decide)

theorem identStart_ne (c : Char) (h : identStart c = true) (d : Char)
    (hd : identStart d = false) : ¬ c = d := by
  intro he
  rw [he, hd] at h
  exact Bool.false_ne_true h

theorem takeWhile_all_append (p : Char → Bool) (l r : List Char)
    (hl : ∀ x ∈ l, p x = true) (hr : ∀ c, r.head? = some c → p c = false) :
    (l ++ r).takeWhile p = l ∧ (l ++ r).dropWhile p = r := by
  constructor
  · rw [List.takeWhile_append_of_pos hl]
    cases r with
    | nil => simp
    | cons c r2 =>
      have := hr c rfl
      rw [List.takeWhile_cons, this]
      simp
  · rw [List.dropWhile_append_of_pos hl]
    cases r with
    | nil => simp
    | cons c r2 =>
      have := hr c rfl
      rw [List.dropWhile_cons, this]
      simp

theorem fits_of_identTextOK (t : Token) (hk : t.kind = TokenKind.ident)
    (hw : identTextOK t.text = true) : fits t := by
  intro r hb
  obtain ⟨k, txt⟩ := t
  simp only at hk
  subst hk
  cases txt with
  | nil => simp [identTextOK] at hw
  | cons c tw =>
    simp only [identTextOK, Bool.and_eq_true, List.all_eq_true] at hw
    obtain ⟨hc, htw⟩ := hw
    have hb2 : ∀ d, r.head? = some d → identChar d = false := by
      intro d hd
      have := hb d hd
      simp only [boundOK, Bool.not_eq_true'] at this
      exact this
    obtain ⟨htake, hdrop⟩ := takeWhile_all_append identChar tw r htw hb2
    show lexStep (c :: (tw ++ r)) = _
    rw [lexStep_cons, if_pos hc, htake, hdrop]

theorem lexStep_good :
    ∀ cs t r0, lexStep cs = some (t, r0) →
      fits t ∧ (∀ c, r0.head? = some c → boundOK t c = true) ∧
      (t.kind = TokenKind.ident → identTextOK t.text = true) := by
  intro cs t r0 h
  cases cs with
  | nil => simp [lexStep] at h
  | cons c cs =>
    rw [lexStep_cons] at h
    by_cases h1 : identStart c
    · rw [if_pos h1] at h
      cases h
      have hwf : identTextOK (c :: cs.takeWhile identChar) = true := by
        simp only [identTextOK, Bool.and_eq_true, List.all_eq_true]
        exact ⟨h1, fun x hx => List.mem_takeWhile_imp hx⟩
      refine ⟨fits_of_identTextOK _ rfl hwf, ?_, fun _ => hwf⟩
      intro d hd
      have hnot := List.head?_dropWhile_not identChar cs
      rw [hd] at hnot
      simp only [boundOK, hnot]
      rfl
    rw [if_neg h1] at h
    by_cases h2 : c.isDigit
    · rw [if_pos h2] at h
      cases h
      refine ⟨?_, ?_, fun hk => by simp at hk⟩
      · intro r hb
        have hb2 : ∀ d, r.head? = some d → Char.isDigit d = false := by
          intro d hd
          have := hb d hd
          simp only [boundOK, Bool.not_eq_true'] at this
          exact this
        obtain ⟨htake, hdrop⟩ := takeWhile_all_append Char.isDigit (cs.takeWhile Char.isDigit)
          r (fun x hx => List.mem_takeWhile_imp hx) hb2
        show lexStep (c :: (cs.takeWhile Char.isDigit ++ r)) = _
        rw [lexStep_cons, if_neg h1, if_pos h2, htake, hdrop]
      · intro d hd
        have hnot := List.head?_dropWhile_not Char.isDigit cs
        rw [hd] at hnot
        simp only [boundOK, hnot]
        rfl
    rw [if_neg h2] at h
    by_cases h3 : wsChar c
    · rw [if_pos h3] at h
      cases h
      refine ⟨?_, ?_, fun hk => by simp at hk⟩
      · intro r hb
        have hb2 : ∀ d, r.head? = some d → wsChar d = false := by
          intro d hd
          have := hb d hd
          simp only [boundOK, Bool.not_eq_true'] at this
          exact this
        obtain ⟨htake, hdrop⟩ := takeWhile_all_append wsChar (cs.takeWhile wsChar)
          r (fun x hx => List.mem_takeWhile_imp hx) hb2
        show lexStep (c :: (cs.takeWhile wsChar ++ r)) = _
        rw [lexStep_cons, if_neg h1, if_neg h2, if_pos h3, htake, hdrop]
      · intro d hd
        have hnot := List.head?_dropWhile_not wsChar cs
        rw [hd] at hnot
        simp only [boundOK, hnot]
        rfl
    rw [if_neg h3] at h
    by_cases h4 : c = quoteChar
    · rw [if_pos h4] at h
      cases hs : scanStr cs with
      | none => rw [hs] at h; simp at h
      | some p =>
        obtain ⟨b, rr⟩ := p
        rw [hs] at h
        simp only [Option.map_some', Option.some_inj] at h
        cases h
        refine ⟨?_, ?_, fun hk => by simp at hk⟩
        · intro r hb
          have hself : scanStr (b ++ r) = some (b, r) := scanDelim_self quoteChar cs b _ hs r
          show lexStep (c :: (b ++ r)) = _
          rw [lexStep_cons, if_neg h1, if_neg h2, if_neg h3, if_pos h4, hself]
          rfl
        · intro d hd
          simp [boundOK]
    rw [if_neg h4] at h
    by_cases h5 : c = tickChar
    · rw [if_pos h5] at h
      cases hs : scanChr cs with
      | none => rw [hs] at h; simp at h
      | some p =>
        obtain ⟨b, rr⟩ := p
        rw [hs] at h
        simp only [Option.map_some', Option.some_inj] at h
        cases h
        refine ⟨?_, ?_, fun hk => by simp at hk⟩
        · intro r hb
          have hself : scanChr (b ++ r) = some (b, r) := scanDelim_self tickChar cs b _ hs r
          show lexStep (c :: (b ++ r)) = _
          rw [lexStep_cons, if_neg h1, if_neg h2, if_neg h3, if_neg h4, if_pos h5, hself]
          rfl
        · intro d hd
          simp [boundOK]
    rw [if_neg h5] at h
    by_cases h6 : c = '/'
    · rw [if_pos h6] at h
      by_cases h7 : cs.head? = some '/'
      · rw [if_pos h7] at h
        cases h
        obtain ⟨x, xs, rfl⟩ : ∃ x xs, cs = x :: xs := by
          cases cs with
          | nil => simp at h7
          | cons x xs => exact ⟨x, xs, rfl⟩
        simp only [List.head?_cons, Option.some_inj] at h7
        subst h7
        subst h6
        refine ⟨?_, ?_, fun hk => by simp at hk⟩
        · intro r hb
          have hb2 : ∀ d, r.head? = some d → notNl d = false := by
            intro d hd
            have hbd := hb d hd
            have hred : boundOK ⟨TokenKind.comment,
                '/' :: '/' :: List.takeWhile notNl ('/' :: xs).tail⟩ d
                = decide (d = nlChar) := by
              show (if lineComment ('/' :: '/' :: List.takeWhile notNl ('/' :: xs).tail)
                then (decide (d = nlChar)) else true) = _
              rw [if_pos (show lineComment ('/' :: '/' ::
                List.takeWhile notNl ('/' :: xs).tail) = true from rfl)]
            rw [hred] at hbd
            have : d = nlChar := of_decide_eq_true hbd
            subst this
            rfl
          obtain ⟨htake, hdrop⟩ := takeWhile_all_append notNl
            (List.takeWhile notNl ('/' :: xs).tail)
            r (fun x hx => List.mem_takeWhile_imp hx) hb2
          show lexStep ('/' :: ('/' :: (List.takeWhile notNl ('/' :: xs).tail ++ r))) = _
          rw [lexStep_cons]
          rw [if_neg h1, if_neg h2, if_neg h3, if_neg h4, if_neg h5,
            if_pos (rfl : ('/' : Char) = '/')]
          rw [if_pos (show ('/' :: (List.takeWhile notNl ('/' :: xs).tail ++ r)).head?
            = some '/' from rfl)]
          show some (Token.mk TokenKind.comment ('/' :: '/' ::
            (List.takeWhile notNl ('/' :: xs).tail ++ r).takeWhile notNl),
            (List.takeWhile notNl ('/' :: xs).tail ++ r).dropWhile notNl) =
            some (Token.mk TokenKind.comment
              ('/' :: '/' :: List.takeWhile notNl ('/' :: xs).tail), r)
          rw [htake, hdrop]
        · intro d hd
          have hnot := List.head?_dropWhile_not notNl ('/' :: xs).tail
          rw [hd] at hnot
          show (if lineComment ('/' :: '/' :: List.takeWhile notNl ('/' :: xs).tail)
            then (decide (d = nlChar)) else true) = true
          rw [if_pos (show lineComment ('/' :: '/' ::
            List.takeWhile notNl ('/' :: xs).tail) = true from rfl)]
          simp only [notNl] at hnot
          simpa using hnot
      rw [if_neg h7] at h
      by_cases h8 : cs.head? = some '*'
      · rw [if_pos h8] at h
        cases hsb : scanBlock cs.tail with
        | none => rw [hsb] at h; simp at h
        | some p =>
          obtain ⟨b, rr⟩ := p
          rw [hsb] at h
          simp only [Option.map_some', Option.some_inj] at h
          cases h
          obtain ⟨x, xs, rfl⟩ : ∃ x xs, cs = x :: xs := by
            cases cs with
            | nil => simp at h8
            | cons x xs => exact ⟨x, xs, rfl⟩
          simp only [List.head?_cons, Option.some_inj] at h8
          subst h8
          subst h6
          refine ⟨?_, ?_, fun hk => by simp at hk⟩
          · intro r hb
            have hself : scanBlock (b ++ r) = some (b, r) :=
              scanBlock_self ('*' :: xs).tail b _ hsb r
            show lexStep ('/' :: ('*' :: (b ++ r))) = _
            rw [lexStep_cons]
            rw [if_neg h1, if_neg h2, if_neg h3, if_neg h4, if_neg h5,
              if_pos (rfl : ('/' : Char) = '/')]
            rw [if_neg (show ¬ ('*' :: (b ++ r)).head? = some '/' by simp)]
            rw [if_pos (show ('*' :: (b ++ r)).head? = some '*' from rfl)]
            show (scanBlock (b ++ r)).map
              (fun p => (Token.mk TokenKind.comment ('/' :: '*' :: p.1), p.2)) =
              some (Token.mk TokenKind.comment ('/' :: '*' :: b), r)
            rw [hself]
            rfl
          · intro d hd
            have hlc : lineComment ('/' :: '*' :: b) = false := rfl
            show (if lineComment ('/' :: '*' :: b) then (decide (d = nlChar)) else true) = true
            rw [if_neg (by simp [hlc])]
      · rw [if_neg h8] at h
        cases h
        subst h6
        refine ⟨?_, ?_, fun hk => by simp at hk⟩
        · intro r hb
          show lexStep ('/' :: r) = _
          rw [lexStep_cons]
          rw [if_neg h1, if_neg h2, if_neg h3, if_neg h4, if_neg h5,
            if_pos (rfl : ('/' : Char) = '/')]
          have hr1 : ¬ r.head? = some '/' := by
            intro hx
            exact absurd (hb '/' hx) (by decide)
          have hr2 : ¬ r.head? = some '*' := by
            intro hx
            exact absurd (hb '*' hx) (by decide)
          rw [if_neg hr1, if_neg hr2]
        · intro d hd
          show (!(decide (d = '/')) && !(decide (d = '*'))) = true
          simp only [Bool.and_eq_true, Bool.not_eq_true', decide_eq_false_iff_not]
          constructor
          · intro hx; rw [hx] at hd; exact h7 hd
          · intro hx; rw [hx] at hd; exact h8 hd
    rw [if_neg h6] at h
    by_cases h9 : c = '-'
    · rw [if_pos h9] at h
      by_cases h10 : cs.head? = some '>'
      · rw [if_pos h10] at h
        cases h
        subst h9
        obtain ⟨x, xs, rfl⟩ : ∃ x xs, cs = x :: xs := by
          cases cs with
          | nil => simp at h10
          | cons x xs => exact ⟨x, xs, rfl⟩
        simp only [List.head?_cons, Option.some_inj] at h10
        subst h10
        refine ⟨?_, ?_, fun hk => by simp at hk⟩
        · intro r hb
          show lexStep ('-' :: ('>' :: r)) = _
          rw [lexStep_cons]
          rw [if_neg h1, if_neg h2, if_neg h3, if_neg h4, if_neg h5, if_neg h6,
            if_pos (rfl : ('-' : Char) = '-')]
          rw [if_pos (show ('>' :: r).head? = some '>' from rfl)]
          rfl
        · intro d hd
          simp [boundOK]
      · rw [if_neg h10] at h
        cases h
        subst h9
        refine ⟨?_, ?_, fun hk => by simp at hk⟩
        · intro r hb
          show lexStep ('-' :: r) = _
          rw [lexStep_cons]
          rw [if_neg h1, if_neg h2, if_neg h3, if_neg h4, if_neg h5, if_neg h6,
            if_pos (rfl : ('-' : Char) = '-')]
          have hr1 : ¬ r.head? = some '>' := by
            intro hx
            exact absurd (hb '>' hx) (by decide)
          rw [if_neg hr1]
        · intro d hd
          show (!(decide (d = '>'))) = true
          simp only [Bool.not_eq_true', decide_eq_false_iff_not]
          intro hx
          rw [hx] at hd
          exact h10 hd
    · rw [if_neg h9] at h
      cases h
      refine ⟨?_, ?_, fun hk => by simp at hk⟩
      · intro r hb
        show lexStep (c :: r) = _
        rw [lexStep_cons]
        rw [if_neg h1, if_neg h2, if_neg h3, if_neg h4, if_neg h5, if_neg h6, if_neg h9]
      · intro d hd
        show boundOK (Token.mk TokenKind.punct [c]) d = true
        have e1 : ¬ ([c] : List Char) = ['/'] := by simp [h6]
        have e2 : ¬ ([c] : List Char) = ['-'] := by simp [h9]
        show (if ([c] : List Char) = ['/'] then !(decide (d = '/')) && !(decide (d = '*'))
          else if ([c] : List Char) = ['-'] then !(decide (d = '>')) else true) = true
        rw [if_neg e1, if_neg e2]

theorem head?_append_ne_nil {a b : List Char} (h : a ≠ []) :
    (a ++ b).head? = a.head? := by
  cases a with
  | nil => exact absurd rfl h
  | cons x xs => rfl

theorem lex_good : ∀ ts cs, lex cs = some ts →
    (∀ t ∈ ts, fits t ∧ (t.kind = TokenKind.ident → identTextOK t.text = true)) ∧
    List.Chain' glue ts := by
  intro ts
  induction ts with
  | nil => intro cs h; exact ⟨by simp, List.chain'_nil⟩
  | cons t ts ih =>
    intro cs h
    cases cs with
    | nil => rw [lex_nil] at h; simp at h
    | cons c cs =>
      rw [lex_cons_eq] at h
      cases hs : lexStep (c :: cs) with
      | none => rw [hs] at h; simp at h
      | some p =>
        obtain ⟨t0, r⟩ := p
        rw [hs] at h
        have h2 : (lex r).map (fun ts0 => t0 :: ts0) = some (t :: ts) := h
        cases hr : lex r with
        | none => rw [hr] at h2; simp at h2
        | some ts0 =>
          rw [hr] at h2
          simp only [Option.map_some', Option.some_inj, List.cons.injEq] at h2
          obtain ⟨rfl, rfl⟩ := h2
          obtain ⟨hfit, hbound, hwf⟩ := lexStep_good _ _ _ hs
          obtain ⟨hall, hchain⟩ := ih r hr
          refine ⟨?_, ?_⟩
          · intro u hu
            rcases List.mem_cons.mp hu with rfl | hu2
            · exact ⟨hfit, hwf⟩
            · exact hall u hu2
          · rw [List.chain'_cons']
            refine ⟨?_, hchain⟩
            intro y hy
            intro d hd
            cases ts0 with
            | nil => simp at hy
            | cons u us =>
              simp only [List.head?_cons, Option.mem_def, Option.some_inj] at hy
              subst hy
              apply hbound
              have hcat := lex_catTexts _ _ hr
              have hne : u.text ≠ [] := fits_text_ne_nil (hall u (by simp)).1
              rw [← hcat]
              show (u.text ++ catTexts us).head? = some d
              rw [head?_append_ne_nil hne]
              exact hd

theorem relex : ∀ ts, (∀ t ∈ ts, fits t) → List.Chain' glue ts →
    lex (catTexts ts) = some ts := by
  intro ts
  induction ts with
  | nil => exact fun _ _ => lex_nil
  | cons t ts ih =>
    intro hfits hchain
    obtain ⟨hhead, hchain2⟩ := List.chain'_cons'.mp hchain
    have hfit : fits t := hfits t (by simp)
    have hb : headBound t (catTexts ts) := by
      intro d hd
      cases ts with
      | nil => simp [catTexts] at hd
      | cons u us =>
        have hne : u.text ≠ [] := fits_text_ne_nil (hfits u (by simp))
        have : (u.text ++ catTexts us).head? = u.text.head? := head?_append_ne_nil hne
        rw [show catTexts (u :: us) = u.text ++ catTexts us from rfl, this] at hd
        exact hhead u rfl d hd
    have hstep := hfit (catTexts ts) hb
    have hne := fits_text_ne_nil hfit
    obtain ⟨c0, tt, htt⟩ := List.exists_cons_of_ne_nil hne
    have heq : catTexts (t :: ts) = c0 :: (tt ++ catTexts ts) := by
      show t.text ++ catTexts ts = _
      rw [htt]
      rfl
    have hstep2 : lexStep (c0 :: (tt ++ catTexts ts)) = some (t, catTexts ts) := by
      rw [← List.cons_append, ← htt]
      exact hstep
    rw [heq, lex_cons_eq, hstep2]
    show (lex (catTexts ts)).map (fun ts0 => t :: ts0) = some (t :: ts)
    rw [ih (fun u hu => hfits u (by simp [hu])) hchain2]
    rfl

/-- Modelled from the spec: validity of a loaded configuration against
the binder facts — canonical names are well-formed fresh identifiers:
never themselves rule keys (the stated precondition of the idempotence
property), and not reusing a bound variable name or a field name. -/
def ValidConfig (rules : List RenameRule) (binds : List TypeBinding)
    (fields : List FieldType) : Prop :=
  (∀ r ∈ rules, identTextOK r.canonical.data = true) ∧
  (∀ r ∈ rules, ∀ r2 ∈ rules, ¬ r2.abbreviated = r.canonical) ∧
  (∀ r ∈ rules, ∀ b ∈ binds, ¬ b.name = r.canonical) ∧
  (∀ r ∈ rules, ∀ e ∈ fields, ¬ e.fieldName = r.canonical)

theorem ruleFor_canonical_none (rules : List RenameRule)
    (h2 : ∀ r ∈ rules, ∀ r2 ∈ rules, ¬ r2.abbreviated = r.canonical)
    (r : RenameRule) (hr : r ∈ rules) (owner : String) :
    ruleFor rules owner r.canonical = none := by
  rw [ruleFor, List.find?_eq_none]
  intro r2 hr2 hpred
  simp only [Bool.and_eq_true, beq_iff_eq] at hpred
  exact h2 r hr r2 hr2 hpred.2

theorem lookupBinding_canonical_none (binds : List TypeBinding) (rules : List RenameRule)
    (h3 : ∀ r ∈ rules, ∀ b ∈ binds, ¬ b.name = r.canonical)
    (r : RenameRule) (hr : r ∈ rules) :
    lookupBinding binds r.canonical = none := by
  rw [lookupBinding, List.find?_eq_none.mpr, Option.map_none']
  intro b hb hpred
  simp only [beq_iff_eq] at hpred
  exact h3 r hr b hb hpred

theorem lookupField_canonical_none (fields : List FieldType) (rules : List RenameRule)
    (h4 : ∀ r ∈ rules, ∀ e ∈ fields, ¬ e.fieldName = r.canonical)
    (r : RenameRule) (hr : r ∈ rules) (owner : String) :
    lookupField fields owner r.canonical = none := by
  rw [lookupField, List.find?_eq_none.mpr, Option.map_none']
  intro e he hpred
  simp only [Bool.and_eq_true, beq_iff_eq] at hpred
  exact h4 r hr e he hpred.2

/-- Relation between an input token and its rewritten form: either
unchanged, or an identifier replaced by well-formed identifier text. -/
def SubstRel (t o : Token) : Prop :=
  o = t ∨ (t.kind = TokenKind.ident ∧ o.kind = TokenKind.ident ∧
    identTextOK o.text = true)

theorem substRel_of_emit (rules : List RenameRule)
    (h1 : ∀ r ∈ rules, identTextOK r.canonical.data = true) (t o : Token)
    (h : o.kind = t.kind ∧ (t.kind ≠ TokenKind.ident → o = t) ∧
      (o.text = t.text ∨ ∃ r ∈ rules, o.text = r.canonical.data ∧
        t.kind = TokenKind.ident ∧ r.abbreviated = String.mk t.text)) :
    SubstRel t o := by
  obtain ⟨hkind, -, htext⟩ := h
  rcases htext with he | ⟨r, hmem, he, hik, -⟩
  · left
    obtain ⟨tk, tt⟩ := t
    obtain ⟨ok, ot⟩ := o
    simp only at hkind he
    rw [hkind, he]
  · right
    exact ⟨hik, by rw [hkind, hik], by rw [he]; exact h1 r hmem⟩

theorem rwRun_substRel (rules : List RenameRule) (binds : List TypeBinding)
    (fields : List FieldType)
    (h1 : ∀ r ∈ rules, identTextOK r.canonical.data = true) :
    ∀ (ts : List Token) (st : RwState),
      List.Forall₂ SubstRel ts (rwRun rules binds fields st ts).1 := by
  intro ts st
  exact List.Forall₂.imp (fun t o h => substRel_of_emit rules h1 t o h)
    (rwRun_forall2 rules binds fields ts st)

theorem boundOK_subst {t o : Token} (h : SubstRel t o) (c : Char) :
    boundOK o c = boundOK t c := by
  rcases h with rfl | ⟨ht, ho, -⟩
  · rfl
  · obtain ⟨tk, tt⟩ := t
    obtain ⟨ok, ot⟩ := o
    simp only at ht ho
    subst ht
    subst ho
    rfl

theorem boundOK_identStart (t : Token) (c c' : Char) (hc : identStart c = true)
    (hc' : identStart c' = true) (h : boundOK t c = true) : boundOK t c' = true := by
  obtain ⟨k, txt⟩ := t
  cases k
  case ident =>
    exfalso
    simp only [boundOK, Bool.not_eq_true'] at h
    rw [identStart_identChar c hc] at h
    exact Bool.noConfusion h
  case number =>
    simp only [boundOK, Bool.not_eq_true']
    exact identStart_not_digit c' hc'
  case ws =>
    simp only [boundOK, Bool.not_eq_true']
    exact identStart_not_ws c' hc'
  case comment =>
    by_cases hl : lineComment txt = true
    · exfalso
      have h2 : (if lineComment txt then (decide (c = nlChar)) else true) = true := h
      rw [if_pos hl] at h2
      have h3 := of_decide_eq_true h2
      rw [h3] at hc
      exact absurd hc (by decide)
    · show (if lineComment txt then (decide (c' = nlChar)) else true) = true
      rw [if_neg hl]
  case op => rfl
  case strLit => rfl
  case charLit => rfl
  case punct =>
    by_cases hp1 : txt = ['/']
    · subst hp1
      show (!(decide (c' = '/')) && !(decide (c' = '*'))) = true
      have e1 := identStart_ne c' hc' '/' (by decide)
      have e2 := identStart_ne c' hc' '*' (by decide)
      simp [e1, e2]
    · by_cases hp2 : txt = ['-']
      · subst hp2
        show (!(decide (c' = '>'))) = true
        have e1 := identStart_ne c' hc' '>' (by decide)
        simp [e1]
      · show (if txt = ['/'] then _ else if txt = ['-'] then _ else true) = true
        rw [if_neg hp1, if_neg hp2]

theorem identTextOK_head {l : List Char} (h : identTextOK l = true) :
    ∃ c tl, l = c :: tl ∧ identStart c = true := by
  cases l with
  | nil => simp [identTextOK] at h
  | cons c tl =>
    simp only [identTextOK, Bool.and_eq_true] at h
    exact ⟨c, tl, rfl, h.1⟩

theorem subst_fits_glue :
    ∀ {ts outs : List Token}, List.Forall₂ SubstRel ts outs →
      (∀ t ∈ ts, fits t ∧ (t.kind = TokenKind.ident → identTextOK t.text = true)) →
      List.Chain' glue ts →
      (∀ o ∈ outs, fits o) ∧ List.Chain' glue outs := by
  intro ts outs hF
  induction hF with
  | nil => exact fun _ _ => ⟨by simp, List.chain'_nil⟩
  | @cons t o ts2 outs2 hrel hF2 ih =>
    intro hall hchain
    obtain ⟨hfit_t, hwf_t⟩ := hall t (by simp)
    have hall2 : ∀ u ∈ ts2, fits u ∧ (u.kind = TokenKind.ident → identTextOK u.text = true) :=
      fun u hu => hall u (by simp [hu])
    obtain ⟨hchainhead, hchain2⟩ := List.chain'_cons'.mp hchain
    obtain ⟨ihfits, ihchain⟩ := ih hall2 hchain2
    refine ⟨?_, ?_⟩
    · intro x hx
      rcases List.mem_cons.mp hx with rfl | hx2
      · rcases hrel with rfl | ⟨hti, hoi, how⟩
        · exact hfit_t
        · exact fits_of_identTextOK _ hoi how
      · exact ihfits x hx2
    · rw [List.chain'_cons']
      refine ⟨?_, ihchain⟩
      intro y hy d hd
      rw [boundOK_subst hrel d]
      cases hF2 with
      | nil => simp at hy
      | @cons t2 o2 ts3 outs3 hrel2 hF3 =>
        simp only [List.head?_cons, Option.mem_def, Option.some_inj] at hy
        subst hy
        rcases hrel2 with heq | ⟨hti2, hoi2, how2⟩
        · rw [heq] at hd
          exact hchainhead t2 rfl d hd
        · obtain ⟨c2, tl2, he2, hs2⟩ := identTextOK_head how2
          rw [he2] at hd
          simp only [List.head?_cons, Option.some_inj] at hd
          rw [← hd]
          have hwf2 := (hall2 t2 (by simp)).2 hti2
          obtain ⟨ct, tlt, het, hst⟩ := identTextOK_head hwf2
          have hb := hchainhead t2 rfl ct (by rw [het]; rfl)
          exact boundOK_identStart t ct c2 hst hs2 hb

/-- Simulation invariant between the resolver state of the first pass
and the state of a second pass at the same position: the member-operator
flag agrees, and the second chain is either the same or already lost. -/
def InvSt (s1 s2 : RwState) : Prop :=
  s2.afterOp = s1.afterOp ∧ (s2.chainType = s1.chainType ∨ s2.chainType = none)

theorem mk_data (s : String) : String.mk s.data = s := rfl

theorem rwStep_idem (rules : List RenameRule) (binds : List TypeBinding)
    (fields : List FieldType) (hv : ValidConfig rules binds fields)
    (s1 s2 : RwState) (hinv : InvSt s1 s2) (t : Token) :
    (rwStep rules binds fields s2 (rwStep rules binds fields s1 t).1).1
        = (rwStep rules binds fields s1 t).1 ∧
    InvSt (rwStep rules binds fields s1 t).2.1
      (rwStep rules binds fields s2 (rwStep rules binds fields s1 t).1).2.1 := by
  obtain ⟨h1, h2, h3, h4⟩ := hv
  obtain ⟨ct1, ao1⟩ := s1
  obtain ⟨ct2, ao2⟩ := s2
  obtain ⟨hao, hct⟩ := hinv
  simp only at hao hct
  subst hao
  obtain ⟨k, txt⟩ := t
  cases k
  case ws => exact ⟨rfl, rfl, hct⟩
  case comment => exact ⟨rfl, rfl, hct⟩
  case number => exact ⟨rfl, rfl, Or.inl rfl⟩
  case strLit => exact ⟨rfl, rfl, Or.inl rfl⟩
  case charLit => exact ⟨rfl, rfl, Or.inl rfl⟩
  case op =>
    have hstep1 : ∀ ct : Option String, ∀ ao : Bool,
        rwStep rules binds fields ⟨ct, ao⟩ ⟨TokenKind.op, txt⟩
        = if isMemberOp ⟨TokenKind.op, txt⟩ then (⟨TokenKind.op, txt⟩, ⟨ct, true⟩, [])
          else (⟨TokenKind.op, txt⟩, ⟨none, false⟩, []) := fun _ _ => rfl
    by_cases hm : isMemberOp ⟨TokenKind.op, txt⟩
    · rw [hstep1 ct1 ao2, if_pos hm, hstep1 ct2 ao2, if_pos hm]
      exact ⟨rfl, rfl, hct⟩
    · rw [hstep1 ct1 ao2, if_neg hm, hstep1 ct2 ao2, if_neg hm]
      exact ⟨rfl, rfl, Or.inl rfl⟩
  case punct =>
    have hstep1 : ∀ ct : Option String, ∀ ao : Bool,
        rwStep rules binds fields ⟨ct, ao⟩ ⟨TokenKind.punct, txt⟩
        = if isMemberOp ⟨TokenKind.punct, txt⟩ then (⟨TokenKind.punct, txt⟩, ⟨ct, true⟩, [])
          else (⟨TokenKind.punct, txt⟩, ⟨none, false⟩, []) := fun _ _ => rfl
    by_cases hm : isMemberOp ⟨TokenKind.punct, txt⟩
    · rw [hstep1 ct1 ao2, if_pos hm, hstep1 ct2 ao2, if_pos hm]
      exact ⟨rfl, rfl, hct⟩
    · rw [hstep1 ct1 ao2, if_neg hm, hstep1 ct2 ao2, if_neg hm]
      exact ⟨rfl, rfl, Or.inl rfl⟩
  case ident =>
    have hstepT : ∀ owner : String,
        rwStep rules binds fields ⟨some owner, true⟩ ⟨TokenKind.ident, txt⟩
        = match ruleFor rules owner (String.mk txt) with
          | some r => (⟨TokenKind.ident, r.canonical.data⟩,
              ⟨lookupField fields owner (String.mk txt), false⟩, [])
          | none => (⟨TokenKind.ident, txt⟩,
              ⟨lookupField fields owner (String.mk txt), false⟩, []) := fun _ => rfl
    have hstepTC : ∀ txt2 : List Char,
        rwStep rules binds fields ⟨none, true⟩ ⟨TokenKind.ident, txt2⟩
        = (⟨TokenKind.ident, txt2⟩, ⟨none, false⟩,
            if matchesAbbrev rules (String.mk txt2) then [String.mk txt2] else []) :=
      fun _ => rfl
    have hstepF : ∀ ct : Option String, ∀ txt2 : List Char,
        rwStep rules binds fields ⟨ct, false⟩ ⟨TokenKind.ident, txt2⟩
        = match ruleFor rules "any" (String.mk txt2) with
          | some r => (⟨TokenKind.ident, r.canonical.data⟩,
              ⟨lookupBinding binds (String.mk txt2), false⟩, [])
          | none => (⟨TokenKind.ident, txt2⟩,
              ⟨lookupBinding binds (String.mk txt2), false⟩, []) := fun _ _ => rfl
    have hstepT2 : ∀ owner : String, ∀ txt2 : List Char,
        rwStep rules binds fields ⟨some owner, true⟩ ⟨TokenKind.ident, txt2⟩
        = match ruleFor rules owner (String.mk txt2) with
          | some r => (⟨TokenKind.ident, r.canonical.data⟩,
              ⟨lookupField fields owner (String.mk txt2), false⟩, [])
          | none => (⟨TokenKind.ident, txt2⟩,
              ⟨lookupField fields owner (String.mk txt2), false⟩, []) := fun _ _ => rfl
    cases ao2 with
    | true =>
      cases ct1 with
      | none =>
        have hct2 : ct2 = none := by
          rcases hct with h | h
          · exact h
          · exact h
        subst hct2
        rw [hstepTC txt]
        rw [hstepTC txt]
        exact ⟨rfl, rfl, Or.inl rfl⟩
      | some owner =>
        cases hr : ruleFor rules owner (String.mk txt) with
        | none =>
          rw [hstepT owner, hr]
          rcases hct with hcteq | hctnone
          · subst hcteq
            rw [hstepT2 owner txt, hr]
            exact ⟨rfl, rfl, Or.inl rfl⟩
          · subst hctnone
            rw [hstepTC txt]
            exact ⟨rfl, rfl, Or.inr rfl⟩
        | some r =>
          have hmem := List.mem_of_find?_eq_some hr
          rw [hstepT owner, hr]
          rcases hct with hcteq | hctnone
          · subst hcteq
            have hr2 : ruleFor rules owner (String.mk r.canonical.data) = none := by
              rw [mk_data]
              exact ruleFor_canonical_none rules h2 r hmem owner
            have hf2 : lookupField fields owner (String.mk r.canonical.data) = none := by
              rw [mk_data]
              exact lookupField_canonical_none fields rules h4 r hmem owner
            rw [hstepT2 owner r.canonical.data, hr2, hf2]
            exact ⟨rfl, rfl, Or.inr rfl⟩
          · subst hctnone
            rw [hstepTC r.canonical.data]
            exact ⟨rfl, rfl, Or.inr rfl⟩
    | false =>
      cases hr : ruleFor rules "any" (String.mk txt) with
      | none =>
        rw [hstepF ct1 txt, hr, hstepF ct2 txt, hr]
        exact ⟨rfl, rfl, Or.inl rfl⟩
      | some r =>
        have hmem := List.mem_of_find?_eq_some hr
        rw [hstepF ct1 txt, hr]
        have hr2 : ruleFor rules "any" (String.mk r.canonical.data) = none := by
          rw [mk_data]
          exact ruleFor_canonical_none rules h2 r hmem "any"
        have hb2 : lookupBinding binds (String.mk r.canonical.data) = none := by
          rw [mk_data]
          exact lookupBinding_canonical_none binds rules h3 r hmem
        rw [hstepF ct2 r.canonical.data, hr2, hb2]
        exact ⟨rfl, rfl, Or.inr rfl⟩

theorem rwRun_idem (rules : List RenameRule) (binds : List TypeBinding)
    (fields : List FieldType) (hv : ValidConfig rules binds fields) :
    ∀ (ts : List Token) (s1 s2 : RwState), InvSt s1 s2 →
      (rwRun rules binds fields s2 (rwRun rules binds fields s1 ts).1).1
        = (rwRun rules binds fields s1 ts).1 := by
  intro ts
  induction ts with
  | nil => intro s1 s2 _; rfl
  | cons t ts ih =>
    intro s1 s2 hinv
    obtain ⟨hout, hinv2⟩ := rwStep_idem rules binds fields hv s1 s2 hinv t
    show (rwRun rules binds fields s2
      ((rwStep rules binds fields s1 t).1 ::
        (rwRun rules binds fields (rwStep rules binds fields s1 t).2.1 ts).1)).1 = _
    show (rwStep rules binds fields s2 (rwStep rules binds fields s1 t).1).1 ::
      (rwRun rules binds fields
        (rwStep rules binds fields s2 (rwStep rules binds fields s1 t).1).2.1
        ((rwRun rules binds fields (rwStep rules binds fields s1 t).2.1 ts).1)).1 = _
    rw [hout, ih _ _ hinv2]
    rfl

theorem rewriteSource_idem_aux (rules : List RenameRule) (binds : List TypeBinding)
    (fields : List FieldType) (hv : ValidConfig rules binds fields)
    (input out : List Char)
    (h : rewriteSource rules binds fields input = some out) :
    rewriteSource rules binds fields out = some out := by
  cases hl : lex input with
  | none => rw [rewriteSource, hl] at h; simp at h
  | some ts =>
    rw [rewriteSource, hl] at h
    simp only [Option.map_some', Option.some_inj] at h
    subst h
    have hF := rwRun_substRel rules binds fields hv.1 ts initState
    obtain ⟨hall, hchain⟩ := lex_good ts input hl
    obtain ⟨hofits, hochain⟩ := subst_fits_glue hF hall hchain
    have hrelex : lex (catTexts (rewriteTokens rules binds fields ts))
        = some (rewriteTokens rules binds fields ts) :=
      relex _ hofits hochain
    rw [rewriteSource, hrelex]
    simp only [Option.map_some', Option.some_inj]
    exact congrArg catTexts
      (rwRun_idem rules binds fields hv ts initState initState ⟨rfl, Or.inl rfl⟩)

/-- C3.  Idempotence: for every input accepted by the lexer and a fixed,
valid rule table — canonical names are well-formed identifiers that are
never themselves rule keys, nor bound variable names, nor field names —
rewriting the output again reproduces it unchanged: a second pass finds
no further abbreviations to match. -/
theorem idempotence (rules : List RenameRule) (binds : List TypeBinding)
    (fields : List FieldType) (input out : List Char)
    (hv : ValidConfig rules binds fields)
    (h : rewriteSource rules binds fields input = some out) :
    rewriteSource rules binds fields out = some out :=
  rewriteSource_idem_aux rules binds fields hv input out h

/-- Witness for C3: the rewritten form of the type disambiguation input
is a fixed point of the rewrite. -/
theorem idempotence_witness :
    rewriteSource [⟨"Pair", "n", "count"⟩, ⟨"Box", "n", "size"⟩]
        [⟨"p", "Pair", 0⟩, ⟨"b", "Box", 0⟩] []
        (("p.count = 1; b.size = 2;").data)
      = some (("p.count = 1; b.size = 2;").data) :=
  idempotence [⟨"Pair", "n", "count"⟩, ⟨"Box", "n", "size"⟩]
    [⟨"p", "Pair", 0⟩, ⟨"b", "Box", 0⟩] []
    (("p.n = 1; b.n = 2;").data) (("p.count = 1; b.size = 2;").data)
    (by refine ⟨?_, ?_, ?_, ?_⟩ <;> decide) (by rfl)

theorem find?_perm {α : Type} {l1 l2 : List α} (hp : l1.Perm l2) (p : α → Bool)
    (huniq : ∀ a ∈ l1, ∀ b ∈ l1, p a = true → p b = true → a = b) :
    l1.find? p = l2.find? p := by
  cases h1 : l1.find? p with
  | none =>
    cases h2 : l2.find? p with
    | none => rfl
    | some b =>
      have hb := List.find?_some h2
      have hbm : b ∈ l1 := hp.symm.subset (List.mem_of_find?_eq_some h2)
      rw [List.find?_eq_none] at h1
      exact absurd hb (h1 b hbm)
  | some a =>
    have ha := List.find?_some h1
    have ham := List.mem_of_find?_eq_some h1
    cases h2 : l2.find? p with
    | none =>
      rw [List.find?_eq_none] at h2
      exact absurd ha (h2 a (hp.subset ham))
    | some b =>
      have hb := List.find?_some h2
      have hbm : b ∈ l1 := hp.symm.subset (List.mem_of_find?_eq_some h2)
      rw [huniq a ham b hbm ha hb]

theorem any_perm {α : Type} {l1 l2 : List α} (hp : l1.Perm l2) (p : α → Bool) :
    l1.any p = l2.any p := by
  cases h1 : l1.any p with
  | true =>
    obtain ⟨x, hx, hpx⟩ := List.any_eq_true.mp h1
    exact (List.any_eq_true.mpr ⟨x, hp.subset hx, hpx⟩).symm
  | false =>
    cases h2 : l2.any p with
    | false => rfl
    | true =>
      obtain ⟨x, hx, hpx⟩ := List.any_eq_true.mp h2
      have h3 := List.any_eq_true.mpr ⟨x, hp.symm.subset hx, hpx⟩
      rw [h3] at h1
      exact Bool.noConfusion h1

theorem dupKey_false_uniq :
    ∀ (rules : List RenameRule), dupKey rules = false →
      ∀ a ∈ rules, ∀ b ∈ rules,
        a.ownerType = b.ownerType → a.abbreviated = b.abbreviated → a = b := by
  intro rules
  induction rules with
  | nil => intro _ a ha; simp at ha
  | cons r rs ih =>
    intro hd a ha b hb hko hka
    simp only [dupKey, Bool.or_eq_false_iff] at hd
    obtain ⟨hany, hrest⟩ := hd
    have hnone : ∀ x ∈ rs, ¬ (x.ownerType == r.ownerType && x.abbreviated == r.abbreviated)
        = true := by
      intro x hx hpx
      have h5 : rs.any
          (fun r2 => r2.ownerType == r.ownerType && r2.abbreviated == r.abbreviated)
          = true := List.any_eq_true.mpr ⟨x, hx, hpx⟩
      rw [h5] at hany
      exact Bool.noConfusion hany
    rcases List.mem_cons.mp ha with rfl | ha2
    · rcases List.mem_cons.mp hb with rfl | hb2
      · rfl
      · exfalso
        exact hnone b hb2 (by simp [beq_iff_eq, hko.symm, hka.symm])
    · rcases List.mem_cons.mp hb with rfl | hb2
      · exfalso
        exact hnone a ha2 (by simp [beq_iff_eq, hko, hka])
      · exact ih hrest a ha2 b hb2 hko hka

theorem ruleFor_perm (rules1 rules2 : List RenameRule) (hp : rules1.Perm rules2)
    (hdup : dupKey rules1 = false) (owner w : String) :
    ruleFor rules1 owner w = ruleFor rules2 owner w := by
  apply find?_perm hp
  intro a ha b hb hpa hpb
  simp only [Bool.and_eq_true, beq_iff_eq] at hpa hpb
  exact dupKey_false_uniq rules1 hdup a ha b hb (hpa.1.trans hpb.1.symm)
    (hpa.2.trans hpb.2.symm)

theorem rwStep_rules_congr (rules1 rules2 : List RenameRule) (binds : List TypeBinding)
    (fields : List FieldType)
    (hfind : ∀ owner w, ruleFor rules1 owner w = ruleFor rules2 owner w)
    (hm : ∀ w, matchesAbbrev rules1 w = matchesAbbrev rules2 w)
    (st : RwState) (t : Token) :
    rwStep rules1 binds fields st t = rwStep rules2 binds fields st t := by
  obtain ⟨k, txt⟩ := t
  obtain ⟨ct, ao⟩ := st
  have hstepT : ∀ (rules : List RenameRule) (owner : String),
      rwStep rules binds fields ⟨some owner, true⟩ ⟨TokenKind.ident, txt⟩
      = match ruleFor rules owner (String.mk txt) with
        | some r => (⟨TokenKind.ident, r.canonical.data⟩,
            ⟨lookupField fields owner (String.mk txt), false⟩, [])
        | none => (⟨TokenKind.ident, txt⟩,
            ⟨lookupField fields owner (String.mk txt), false⟩, []) := fun _ _ => rfl
  have hstepTC : ∀ rules : List RenameRule,
      rwStep rules binds fields ⟨none, true⟩ ⟨TokenKind.ident, txt⟩
      = (⟨TokenKind.ident, txt⟩, ⟨none, false⟩,
          if matchesAbbrev rules (String.mk txt) then [String.mk txt] else []) :=
    fun _ => rfl
  have hstepF : ∀ (rules : List RenameRule) (ct2 : Option String),
      rwStep rules binds fields ⟨ct2, false⟩ ⟨TokenKind.ident, txt⟩
      = match ruleFor rules "any" (String.mk txt) with
        | some r => (⟨TokenKind.ident, r.canonical.data⟩,
            ⟨lookupBinding binds (String.mk txt), false⟩, [])
        | none => (⟨TokenKind.ident, txt⟩,
            ⟨lookupBinding binds (String.mk txt), false⟩, []) := fun _ _ => rfl
  cases k
  case ws => rfl
  case comment => rfl
  case number => rfl
  case strLit => rfl
  case charLit => rfl
  case op => rfl
  case punct => rfl
  case ident =>
    cases ao with
    | true =>
      cases ct with
      | none => rw [hstepTC rules1, hstepTC rules2, hm (String.mk txt)]
      | some owner =>
        rw [hstepT rules1 owner, hstepT rules2 owner, hfind owner (String.mk txt)]
    | false =>
      rw [hstepF rules1 ct, hstepF rules2 ct, hfind "any" (String.mk txt)]

theorem rwRun_rules_congr (rules1 rules2 : List RenameRule) (binds : List TypeBinding)
    (fields : List FieldType)
    (hfind : ∀ owner w, ruleFor rules1 owner w = ruleFor rules2 owner w)
    (hm : ∀ w, matchesAbbrev rules1 w = matchesAbbrev rules2 w) :
    ∀ (ts : List Token) (st : RwState),
      rwRun rules1 binds fields st ts = rwRun rules2 binds fields st ts := by
  intro ts
  induction ts with
  | nil => intro st; rfl
  | cons t ts ih =>
    intro st
    show ((rwStep rules1 binds fields st t).1 ::
        (rwRun rules1 binds fields (rwStep rules1 binds fields st t).2.1 ts).1, _, _) = _
    rw [rwStep_rules_congr rules1 rules2 binds fields hfind hm st t,
      ih ((rwStep rules2 binds fields st t).2.1)]
    rfl

theorem rewriteSource_rules_congr (rules1 rules2 : List RenameRule)
    (binds : List TypeBinding) (fields : List FieldType)
    (hperm : rules1.Perm rules2) (hdup : dupKey rules1 = false) (input : List Char) :
    rewriteSource rules1 binds fields input = rewriteSource rules2 binds fields input := by
  unfold rewriteSource
  congr 1
  funext ts
  exact congrArg catTexts (congrArg (fun p => p.1)
    (rwRun_rules_congr rules1 rules2 binds fields
      (ruleFor_perm rules1 rules2 hperm hdup)
      (fun w => any_perm hperm (fun r => r.abbreviated == w)) ts initState))

/-- C6.  Order independence: with a duplicate-free rule table, applying
the table's substitutions gives the same output for any reordering of the
rules (the conceptually separate field groups), and repeating the
application changes nothing further. -/
theorem order_independence (rules1 rules2 : List RenameRule) (binds : List TypeBinding)
    (fields : List FieldType) (input out : List Char)
    (hperm : rules1.Perm rules2) (hdup : dupKey rules1 = false)
    (hv : ValidConfig rules1 binds fields)
    (h : rewriteSource rules1 binds fields input = some out) :
    rewriteSource rules2 binds fields input = some out ∧
    rewriteSource rules1 binds fields out = some out := by
  constructor
  · rw [← rewriteSource_rules_congr rules1 rules2 binds fields hperm hdup input]
    exact h
  · exact rewriteSource_idem_aux rules1 binds fields hv input out h

/-- Witness for C6: the two rules of the type disambiguation table give
the same output in either order, and the output is a fixed point. -/
theorem order_independence_witness :
    rewriteSource [⟨"Box", "n", "size"⟩, ⟨"Pair", "n", "count"⟩]
        [⟨"p", "Pair", 0⟩, ⟨"b", "Box", 0⟩] []
        (("p.n = 1; b.n = 2;").data)
      = some (("p.count = 1; b.size = 2;").data) ∧
    rewriteSource [⟨"Pair", "n", "count"⟩, ⟨"Box", "n", "size"⟩]
        [⟨"p", "Pair", 0⟩, ⟨"b", "Box", 0⟩] []
        (("p.count = 1; b.size = 2;").data)
      = some (("p.count = 1; b.size = 2;").data) :=
  order_independence [⟨"Pair", "n", "count"⟩, ⟨"Box", "n", "size"⟩]
    [⟨"Box", "n", "size"⟩, ⟨"Pair", "n", "count"⟩]
    [⟨"p", "Pair", 0⟩, ⟨"b", "Box", 0⟩] []
    (("p.n = 1; b.n = 2;").data) (("p.count = 1; b.size = 2;").data)
    (by decide) (by decide) (by refine ⟨?_, ?_, ?_, ?_⟩ <;> decide) (by rfl)

end Engine
